import Mathlib

/-!
# Verification of the Orbit entity store and ingestion reconciler

Shallow embedding of the repository's ingestion reconciler
(`packages/ingester/src/ingest.ts`), the derived-row maintenance of the
database backend, and the spaced-repetition scheduler, together with proofs
of the specification's claims about them.

JavaScript `Map`s are modelled as insertion-ordered association lists;
`generateUniqueID` is modelled by threading a counter through the
computation, mirroring the evaluation order of the TypeScript source.
-/

namespace Orbit

/-! ## JavaScript `Map` model -/

/-- An insertion-ordered association list, modelling a JS `Map` with string
keys.  All maps in the development are built from `[]` via `jset`, so their
keys are pairwise distinct. -/
abbrev JMap (β : Type) := List (String × β)

/-- `Map.prototype.get`: the value at the first matching key, if any. -/
def jget {β : Type} : JMap β → String → Option β
  | [], _ => none
  | (k', v) :: rest, k => if k' == k then some v else jget rest k

/-- `Map.prototype.set`: replace the value at an existing key in place,
otherwise append the new entry at the end (insertion order). -/
def jset {β : Type} : JMap β → String → β → JMap β
  | [], k, v => [(k, v)]
  | (k', v') :: rest, k, v =>
    if k' == k then (k, v) :: rest else (k', v') :: jset rest k v

/-- `Map.prototype.delete`: remove the entry with the given key. -/
def jdel {β : Type} (m : JMap β) (k : String) : JMap β :=
  m.filter (fun p => p.1 != k)

/-- The keys of a map, in insertion order. -/
def jkeys {β : Type} (m : JMap β) : List String := m.map (·.1)

/-- `Map.prototype.values`, in insertion order. -/
def jvalues {β : Type} (m : JMap β) : List β := m.map (·.2)

/-! ## Data model (`@withorbit/core`) -/

/-- `TaskProvenance`: metadata describing an entity's originating external
source.  `url` and `colorPaletteName` are optional fields. -/
structure TaskProvenance where
  identifier : String
  title : String
  url : Option String
  colorPaletteName : Option String
deriving DecidableEq, Repr

/-- A `Task` entity as seen by the reconciler: its id, optional provenance,
and free-form string metadata. -/
structure Task where
  id : String
  provenance : Option TaskProvenance
  metadata : JMap String
deriving DecidableEq, Repr

/-- An item of an `IngestibleSource`. -/
structure IngestibleItem where
  identifier : String
  spec : String
deriving DecidableEq, Repr

/-- An external source presented to the reconciler. -/
structure IngestibleSource where
  identifier : String
  title : String
  url : Option String
  colorPaletteName : Option String
  items : List IngestibleItem
deriving DecidableEq, Repr

/-- `TaskIngestEvent`. -/
structure TaskIngestEvent where
  id : String
  spec : String
  entityID : String
  timestampMillis : Int
  metadata : JMap String
  provenance : TaskProvenance
deriving DecidableEq, Repr

/-- `TaskUpdateDeletedEvent`. -/
structure TaskUpdateDeletedEvent where
  id : String
  entityID : String
  timestampMillis : Int
  isDeleted : Bool
deriving DecidableEq, Repr

/-- `TaskUpdateProvenanceEvent`. -/
structure TaskUpdateProvenanceEvent where
  id : String
  entityID : String
  timestampMillis : Int
  provenance : TaskProvenance
deriving DecidableEq, Repr

/-- The closed set of event variants produced by the reconciler. -/
inductive Event where
  | taskIngest (e : TaskIngestEvent)
  | taskUpdateDeleted (e : TaskUpdateDeletedEvent)
  | taskUpdateProvenance (e : TaskUpdateProvenanceEvent)
deriving DecidableEq, Repr

/-- Errors raised by `ingestSources`. -/
inductive IngestError where
  | missingItemIdentifier
  | duplicateItemIdentifier (identifier : String)
deriving DecidableEq, Repr

/-- `INGEST_ITEM_IDENTIFIER_KEY`. -/
def INGEST_ITEM_IDENTIFIER_KEY : String := "ingestSourceIdentifier"

/-- `generateUniqueID`, modelled by a counter: the `n`-th generated id. -/
def generateUniqueID (n : Nat) : String := "uid-" ++ toString n

/-- JS truthiness of an optional string: `undefined` and `""` are falsy. -/
def truthyString : Option String → Bool
  | none => false
  | some s => s != ""

/-- The ingestion item identifier recorded in a task's metadata
(defaulting to `""` when absent). -/
def entityItemID (e : Task) : String :=
  (jget e.metadata INGEST_ITEM_IDENTIFIER_KEY).getD ""

/-- Whether a task carries a truthy ingestion item identifier. -/
def truthyItemID (e : Task) : Bool :=
  truthyString (jget e.metadata INGEST_ITEM_IDENTIFIER_KEY)

/-! ## The reconciler (`ingest.ts`) -/

/-- The `TaskProvenance` built by `createIngestTaskForSource` from a source:
`url` and `colorPaletteName` are spread in only when truthy. -/
def sourceProvenance (source : IngestibleSource) : TaskProvenance :=
  { identifier := source.identifier
    title := source.title
    url := if truthyString source.url then source.url else none
    colorPaletteName :=
      if truthyString source.colorPaletteName then source.colorPaletteName
      else none }

/-- `createIngestTaskForSource` applied to one item; `generateUniqueID` is
called for `id` and then for `entityID`, so the counter advances by two. -/
def createIngestTaskForSource (source : IngestibleSource)
    (insertTimestampMilis : Int) (item : IngestibleItem) (c : Nat) :
    TaskIngestEvent × Nat :=
  ({ id := generateUniqueID c
     spec := item.spec
     entityID := generateUniqueID (c + 1)
     timestampMillis := insertTimestampMilis
     metadata := [(INGEST_ITEM_IDENTIFIER_KEY, item.identifier)]
     provenance := sourceProvenance source }, c + 2)

/-- `createDeleteTaskEvent`. -/
def createDeleteTaskEvent (task : Task) (timestampMillis : Int) (c : Nat) :
    TaskUpdateDeletedEvent × Nat :=
  ({ id := generateUniqueID c
     entityID := task.id
     timestampMillis := timestampMillis
     isDeleted := true }, c + 1)

/-- `createUpdateProvenanceEvent`. -/
def createUpdateProvenanceEvent (originalEntityId : String)
    (ingestEvent : TaskIngestEvent) (c : Nat) :
    TaskUpdateProvenanceEvent × Nat :=
  ({ id := generateUniqueID c
     entityID := originalEntityId
     timestampMillis := ingestEvent.timestampMillis
     provenance := ingestEvent.provenance }, c + 1)

/-- `groupEntitiesByProvenanceIdentifiers`: entities without provenance are
skipped; the rest are grouped by their provenance identifier, each group in
list order. -/
def groupEntitiesByProvenanceIdentifiers :
    List Task → JMap (List Task) → JMap (List Task)
  | [], mapping => mapping
  | entity :: rest, mapping =>
    match entity.provenance with
    | none => groupEntitiesByProvenanceIdentifiers rest mapping
    | some provenance =>
      match jget mapping provenance.identifier with
      | some existing =>
        groupEntitiesByProvenanceIdentifiers rest
          (jset mapping provenance.identifier (existing ++ [entity]))
      | none =>
        groupEntitiesByProvenanceIdentifiers rest
          (jset mapping provenance.identifier [entity])

/-- `mapEntitiesByItemIdentifier`: throws `MissingItemIdentifierError` as
soon as an entity's item identifier is falsy. -/
def mapEntitiesByItemIdentifier :
    List Task → JMap Task → Except IngestError (JMap Task)
  | [], mapping => .ok mapping
  | entity :: rest, mapping =>
    match jget entity.metadata INGEST_ITEM_IDENTIFIER_KEY with
    | some itemID =>
      if itemID == "" then .error .missingItemIdentifier
      else mapEntitiesByItemIdentifier rest (jset mapping itemID entity)
    | none => .error .missingItemIdentifier

/-- `mapIngestibleItemsByItemIdentifier`: throws
`DuplicateItemIdentifierError` on the first repeated item identifier. -/
def mapIngestibleItemsByItemIdentifier :
    List IngestibleItem → JMap IngestibleItem →
    Except IngestError (JMap IngestibleItem)
  | [], mapping => .ok mapping
  | item :: rest, mapping =>
    match jget mapping item.identifier with
    | none =>
      mapIngestibleItemsByItemIdentifier rest
        (jset mapping item.identifier item)
    | some _ => .error (.duplicateItemIdentifier item.identifier)

/-- The first loop of the existing-group branch of `ingestSources`: items
whose key has no existing entity become ingest events. -/
def addIngestEvents (source : IngestibleSource) (timeMillis : Int) :
    List (String × IngestibleItem) → JMap Task → JMap TaskIngestEvent →
    Nat → JMap TaskIngestEvent × Nat
  | [], _, ingestEvents, c => (ingestEvents, c)
  | (key, potentialNewItem) :: rest, eMap, ingestEvents, c =>
    match jget eMap key with
    | none =>
      let r := createIngestTaskForSource source timeMillis potentialNewItem c
      addIngestEvents source timeMillis rest eMap (jset ingestEvents key r.1)
        r.2
    | some _ => addIngestEvents source timeMillis rest eMap ingestEvents c

/-- The second loop of the existing-group branch of `ingestSources`:
existing entities whose key has no incoming item become delete events. -/
def addDeleteEvents (timeMillis : Int) :
    List (String × Task) → JMap IngestibleItem →
    JMap TaskUpdateDeletedEvent → Nat → JMap TaskUpdateDeletedEvent × Nat
  | [], _, deleteEvents, c => (deleteEvents, c)
  | (key, existingTask) :: rest, iMap, deleteEvents, c =>
    match jget iMap key with
    | none =>
      let r := createDeleteTaskEvent existingTask timeMillis c
      addDeleteEvents timeMillis rest iMap (jset deleteEvents key r.1) r.2
    | some _ => addDeleteEvents timeMillis rest iMap deleteEvents c

/-- The new-source branch of `ingestSources`: every item is ingested. -/
def ingestNewSource (source : IngestibleSource) (timeMillis : Int) :
    List IngestibleItem → JMap TaskIngestEvent → Nat →
    JMap TaskIngestEvent × Nat
  | [], ingestEvents, c => (ingestEvents, c)
  | item :: rest, ingestEvents, c =>
    let r := createIngestTaskForSource source timeMillis item c
    ingestNewSource source timeMillis rest
      (jset ingestEvents item.identifier r.1) r.2

/-- The main loop of `ingestSources` over the incoming sources,
accumulating the ingest-event and delete-event maps. -/
def processSources (groups : JMap (List Task)) (timeMillis : Int) :
    List IngestibleSource → JMap TaskIngestEvent →
    JMap TaskUpdateDeletedEvent → Nat →
    Except IngestError
      (JMap TaskIngestEvent × JMap TaskUpdateDeletedEvent × Nat)
  | [], ingestEvents, deleteEvents, c => .ok (ingestEvents, deleteEvents, c)
  | source :: rest, ingestEvents, deleteEvents, c =>
    match jget groups source.identifier with
    | some existingEntity =>
      match mapEntitiesByItemIdentifier existingEntity [] with
      | .error e => .error e
      | .ok eMap =>
        match mapIngestibleItemsByItemIdentifier source.items [] with
        | .error e => .error e
        | .ok iMap =>
          let ri := addIngestEvents source timeMillis iMap eMap ingestEvents c
          let rd := addDeleteEvents timeMillis eMap iMap deleteEvents ri.2
          processSources groups timeMillis rest ri.1 rd.1 rd.2
    | none =>
      let ri := ingestNewSource source timeMillis source.items ingestEvents c
      processSources groups timeMillis rest ri.1 deleteEvents ri.2

/-- The reconciliation ("move") pass of `ingestSources`: iterate over the
ingest-event entries; a key also present in the delete map cancels both
events and emits a provenance-update event instead. -/
def movePass :
    List (String × TaskIngestEvent) → JMap TaskIngestEvent →
    JMap TaskUpdateDeletedEvent → List TaskUpdateProvenanceEvent → Nat →
    JMap TaskIngestEvent × JMap TaskUpdateDeletedEvent ×
      List TaskUpdateProvenanceEvent × Nat
  | [], ingestEvents, deleteEvents, updates, c =>
    (ingestEvents, deleteEvents, updates, c)
  | (key, ingestEvent) :: rest, ingestEvents, deleteEvents, updates, c =>
    match jget deleteEvents key with
    | some deleteEvent =>
      let r := createUpdateProvenanceEvent deleteEvent.entityID ingestEvent c
      movePass rest (jdel ingestEvents key) (jdel deleteEvents key)
        (updates ++ [r.1]) r.2
    | none => movePass rest ingestEvents deleteEvents updates c

/-- `ingestSources`, as a function of the entities returned by the store's
`listEntities` query.  Returns the concatenation of the surviving ingest
events, surviving delete events, and provenance-update events. -/
def ingestSources (sources : List IngestibleSource) (entities : List Task)
    (timeMillis : Int) : Except IngestError (List Event) :=
  let groups := groupEntitiesByProvenanceIdentifiers entities []
  match processSources groups timeMillis sources [] [] 0 with
  | .error e => .error e
  | .ok (ingestEvents, deleteEvents, c) =>
    let r := movePass ingestEvents ingestEvents deleteEvents [] c
    .ok ((jvalues r.1).map .taskIngest ++
      (jvalues r.2.1).map .taskUpdateDeleted ++
      r.2.2.1.map .taskUpdateProvenance)

/-! ## The store, as seen by the reconciler

`ingestSources` receives an `OrbitStore` and interacts with it only through
the read-only `listEntities` query; everything else it does is pure. -/

/-- A derived row of the `derived_taskComponents` table. -/
structure DerivedRow where
  taskID : String
  componentID : String
  dueTimestampMillis : Int
deriving DecidableEq, Repr

/-- The store state visible to this development: task entities, the event
log, and the derived-row table. -/
structure OrbitStore where
  taskEntities : List Task
  eventLog : List Event
  derivedRows : List DerivedRow
deriving DecidableEq, Repr

/-- `listEntities` with the reconciler's query (`entityType: Task`): a
read-only query returning the task entities and leaving the store as is. -/
def listEntities (store : OrbitStore) : List Task × OrbitStore :=
  (store.taskEntities, store)

/-- `ingestSources` run against a store: the single `listEntities` call,
then the pure reconciliation; returns the events and the resulting store. -/
def ingestSourcesFromStore (sources : List IngestibleSource)
    (store : OrbitStore) (timeMillis : Int) :
    Except IngestError (List Event) × OrbitStore :=
  let r := listEntities store
  (ingestSources sources r.1 timeMillis, r.2)

/-! ## Database backend and derived-row projection

Modelled from the spec: the `IDBDatabaseBackend` implementation of
`modifyEntities` and the `derived_taskComponents` projector are not part of
the source sample (only their tests are), so they are modelled from spec
sections 4.3 and 4.4 and the shape of the test fixtures: `modifyEntities`
writes every record returned by the transform and, per written entity, runs
the projector against the previous state and applies the resulting
upserts and deletes to the derived-row table. -/

/-- Scheduling state of one task component, projected to its due time. -/
structure TaskComponentState where
  dueTimestampMillis : Int
deriving DecidableEq, Repr

/-- A task as stored by the database backend: id, deletion flag, and
per-component scheduling state keyed by component id. -/
structure CoreTask where
  id : String
  isDeleted : Bool
  componentStates : JMap TaskComponentState
deriving DecidableEq, Repr

/-- `DatabaseBackendEntityRecord`: an entity with its optimistic-concurrency
fingerprint. -/
structure EntityRecord where
  entity : CoreTask
  lastEventID : String
  lastEventTimestampMillis : Int
deriving DecidableEq, Repr

/-- Backend state: the entity table keyed by entity id, and the
`derived_taskComponents` table. -/
structure Backend where
  entities : JMap EntityRecord
  derivedRows : List DerivedRow
deriving DecidableEq, Repr

/-- A backend with empty tables. -/
def emptyBackend : Backend := { entities := [], derivedRows := [] }

/-- Modelled from the spec: the derived rows a task should currently have —
one per component when the task is live, none when it is deleted. -/
def taskComponentRows (task : CoreTask) : List DerivedRow :=
  if task.isDeleted then []
  else
    task.componentStates.map
      (fun p => { taskID := task.id, componentID := p.1
                  dueTimestampMillis := p.2.dueTimestampMillis })

/-- Modelled from the spec: `project(previous, next)` — upserts for every
live component of `next`, deletes for components of `previous` that are no
longer live in `next`. -/
def project (previous : Option CoreTask) (next : CoreTask) :
    List DerivedRow × List (String × String) :=
  let nextRows := taskComponentRows next
  let prevRows := match previous with
    | none => []
    | some p => taskComponentRows p
  (nextRows,
    (prevRows.filter (fun r =>
      !(nextRows.any (fun n => n.componentID == r.componentID)))).map
      (fun r => (r.taskID, r.componentID)))

/-- Apply a projector delta to the derived-row table: remove the deleted
keys and the keys being upserted, then append the upserts. -/
def applyDelta (table : List DerivedRow) (upserts : List DerivedRow)
    (deletes : List (String × String)) : List DerivedRow :=
  (table.filter (fun r =>
      !(deletes.any (fun d => d.1 == r.taskID && d.2 == r.componentID)) &&
      !(upserts.any (fun u =>
        u.taskID == r.taskID && u.componentID == r.componentID)))) ++
    upserts

/-- Commit one staged record: store it in the entity table and apply its
projector delta, with `previous` read from the pre-transaction backend. -/
def writeRecord (b0 : Backend) (b : Backend) (rec : EntityRecord) :
    Backend :=
  let previous := (jget b0.entities rec.entity.id).map (·.entity)
  let pr := project previous rec.entity
  { entities := jset b.entities rec.entity.id rec
    derivedRows := applyDelta b.derivedRows pr.1 pr.2 }

/-- Modelled from the spec: `modifyEntities` — the transform receives the
entire current entity map; every record it returns is committed, entity
record and derived rows together. -/
def modifyEntities (b : Backend)
    (transform : JMap EntityRecord → JMap EntityRecord) : Backend :=
  (transform b.entities).foldl (fun acc p => writeRecord b acc p.2) b

/-- The row, if any, that the invariant prescribes for a given
`(taskID, componentID)` pair: present exactly when the entity exists, is
live, and has that component. -/
def liveRowFor (b : Backend) (tid cid : String) : Option DerivedRow :=
  match jget b.entities tid with
  | none => none
  | some rec =>
    if rec.entity.isDeleted then none
    else
      (jget rec.entity.componentStates cid).map
        (fun st => { taskID := tid, componentID := cid
                     dueTimestampMillis := st.dueTimestampMillis })

/-- The derived-row invariant: for every key, the table's rows with that key
are exactly the prescribed live row (so: exactly one matching row per live
component, zero rows for deleted components or entities). -/
def rowsConsistent (b : Backend) : Prop :=
  ∀ tid cid,
    b.derivedRows.filter
      (fun r => r.taskID == tid && r.componentID == cid) =
    (liveRowFor b tid cid).toList

/-- Well-formedness of the backend: entity-table keys are the stored
entities' ids, keys are distinct, and the derived table is consistent. -/
def backendWF (b : Backend) : Prop :=
  (∀ p ∈ b.entities, p.2.entity.id = p.1) ∧
  (jkeys b.entities).Nodup ∧ rowsConsistent b

/-- Well-formedness of a transform's output: pairwise-distinct entity ids
and, per record, pairwise-distinct component ids. -/
def recordsWF (recs : JMap EntityRecord) : Prop :=
  (recs.map (fun p => p.2.entity.id)).Nodup ∧
  ∀ p ∈ recs, (jkeys p.2.entity.componentStates).Nodup

/-! ## Scheduler

Modelled from the spec: the spaced-repetition scheduler
(`schedulers/spacedRepetitionScheduler`) is re-exported by the core package
but its implementation is not part of the source sample; it is modelled
from spec section 4.2: a small fixed initial interval on first review,
growth by a configurable factor bounded by a maximum interval on
"Remembered", reset to the initial interval (retaining the history count)
on "Forgotten". -/

/-- A review outcome (the closed enumeration). -/
inductive TaskRepetitionOutcome where
  | remembered
  | forgotten
deriving DecidableEq, Repr

/-- Scheduling state of a component. -/
structure ComponentSchedulingState where
  intervalMillis : Nat
  dueTimestampMillis : Int
  reviewCount : Nat
deriving DecidableEq, Repr

/-- Scheduler configuration: initial interval, growth factor, maximum
interval. -/
structure SchedulerParams where
  initialIntervalMillis : Nat
  growthFactor : Nat
  maximumIntervalMillis : Nat
deriving DecidableEq, Repr

/-- Modelled from the spec: `nextState`. -/
def nextState (params : SchedulerParams)
    (current : Option ComponentSchedulingState)
    (outcome : TaskRepetitionOutcome) (reviewTimestampMillis : Int) :
    ComponentSchedulingState :=
  match current with
  | none =>
    { intervalMillis := params.initialIntervalMillis
      dueTimestampMillis :=
        reviewTimestampMillis + params.initialIntervalMillis
      reviewCount := 1 }
  | some cur =>
    match outcome with
    | .remembered =>
      let interval :=
        min params.maximumIntervalMillis
          (cur.intervalMillis * params.growthFactor)
      { intervalMillis := interval
        dueTimestampMillis := reviewTimestampMillis + interval
        reviewCount := cur.reviewCount + 1 }
    | .forgotten =>
      { intervalMillis := params.initialIntervalMillis
        dueTimestampMillis :=
          reviewTimestampMillis + params.initialIntervalMillis
        reviewCount := cur.reviewCount + 1 }


/-- Decidable equality of `Except` results, for evaluating concrete runs. -/
instance {ε α : Type} [DecidableEq ε] [DecidableEq α] :
    DecidableEq (Except ε α) := fun x y =>
  match x, y with
  | .ok a, .ok b =>
    if h : a = b then .isTrue (h ▸ rfl)
    else .isFalse (fun hc => h (Except.ok.inj hc))
  | .error a, .error b =>
    if h : a = b then .isTrue (h ▸ rfl)
    else .isFalse (fun hc => h (Except.error.inj hc))
  | .ok _, .error _ => .isFalse (fun hc => Except.noConfusion hc)
  | .error _, .ok _ => .isFalse (fun hc => Except.noConfusion hc)

/-! ## Derived definitions used in specification statements -/

/-- Whether a task's provenance carries the given source identifier. -/
def provMatches (sid : String) (e : Task) : Bool :=
  match e.provenance with
  | some p => p.identifier == sid
  | none => false

/-- The stored entities whose provenance identifier is `sid`, in store
order — the group the reconciler builds for a source. -/
def matchingEntities (sid : String) (entities : List Task) : List Task :=
  entities.filter (provMatches sid)

/-- Pair every element with its index, starting at `n`. -/
def enumFrom {α : Type} (n : Nat) : List α → List (Nat × α)
  | [] => []
  | a :: rest => (n, a) :: enumFrom (n + 1) rest

/-- The ingest-event entries produced for a brand-new source, in item
order, with the counter advancing by two per item. -/
def newIngestEntries (source : IngestibleSource) (timeMillis : Int)
    (c : Nat) : List IngestibleItem → List (String × TaskIngestEvent)
  | [] => []
  | item :: rest =>
    (item.identifier, (createIngestTaskForSource source timeMillis item c).1)
      :: newIngestEntries source timeMillis (c + 2) rest

/-- The ingest-map entries whose key is also a delete-map key — the entries
the move pass reclassifies. -/
def movePassHits (deleteEvents : JMap TaskUpdateDeletedEvent) :
    List (String × TaskIngestEvent) → List (String × TaskIngestEvent)
  | [] => []
  | (key, ingestEvent) :: rest =>
    match jget deleteEvents key with
    | some _ => (key, ingestEvent) :: movePassHits deleteEvents rest
    | none => movePassHits deleteEvents rest

/-- The provenance-update events the move pass emits. -/
def movePassUpdates (deleteEvents : JMap TaskUpdateDeletedEvent) (c : Nat) :
    List (String × TaskIngestEvent) → List TaskUpdateProvenanceEvent
  | [] => []
  | (key, ingestEvent) :: rest =>
    match jget deleteEvents key with
    | some deleteEvent =>
      (createUpdateProvenanceEvent deleteEvent.entityID ingestEvent c).1
        :: movePassUpdates deleteEvents (c + 1) rest
    | none => movePassUpdates deleteEvents c rest

/-- Remove the entries with the given keys, in sequence. -/
def stripKeys {β : Type} : JMap β → List String → JMap β
  | m, [] => m
  | m, k :: ks => stripKeys (jdel m k) ks

/-- Invariant of the ingest-event map built by the source loop: keys are
distinct and every event's metadata names its own key, at the run's
timestamp. -/
def IngMapInv (timeMillis : Int) (m : JMap TaskIngestEvent) : Prop :=
  (jkeys m).Nodup ∧
  ∀ p ∈ m, p.2.metadata = [(INGEST_ITEM_IDENTIFIER_KEY, p.1)] ∧
    p.2.timestampMillis = timeMillis

/-- Invariant of the delete-event map built by the source loop: keys are
distinct and every event targets a stored entity whose item identifier is
the entry's key and whose provenance matches one of the sources. -/
def DelMapInv (entities : List Task) (sources : List IngestibleSource)
    (m : JMap TaskUpdateDeletedEvent) : Prop :=
  (jkeys m).Nodup ∧
  ∀ p ∈ m, ∃ e ∈ entities, p.2.entityID = e.id ∧
    jget e.metadata INGEST_ITEM_IDENTIFIER_KEY = some p.1 ∧ p.1 ≠ "" ∧
    ∃ s ∈ sources, provMatches s.identifier e = true

/-- An ingest event whose metadata names item identifier `k`. -/
def isIngestEventFor (k : String) : Event → Bool
  | .taskIngest e => jget e.metadata INGEST_ITEM_IDENTIFIER_KEY == some k
  | _ => false

/-- A deletion event targeting the given entity id. -/
def isDeleteEventFor (entityID : String) : Event → Bool
  | .taskUpdateDeleted e => e.entityID == entityID
  | _ => false

/-- Any provenance-update event. -/
def isUpdateProvenanceEvent : Event → Bool
  | .taskUpdateProvenance _ => true
  | _ => false

/-- A provenance-update event with the given target, provenance and
timestamp. -/
def isUpdateProvenanceEventFor (entityID : String) (prov : TaskProvenance)
    (ts : Int) : Event → Bool
  | .taskUpdateProvenance e =>
    e.entityID == entityID && decide (e.provenance = prov) &&
      decide (e.timestampMillis = ts)
  | _ => false

/-- A deletion or provenance-update event may only target a stored entity
whose provenance identifier is one of the call's source identifiers. -/
def refsMatchedEntity (sources : List IngestibleSource)
    (entities : List Task) : Event → Prop
  | .taskIngest _ => True
  | .taskUpdateDeleted d =>
    ∃ e ∈ entities, d.entityID = e.id ∧
      ∃ s ∈ sources, provMatches s.identifier e = true
  | .taskUpdateProvenance u =>
    ∃ e ∈ entities, u.entityID = e.id ∧
      ∃ s ∈ sources, provMatches s.identifier e = true

/-! ## Concrete instances used for witnesses and counterexamples -/

/-- A previously ingested task of source `S` with item identifier `a`. -/
def cTaskA : Task :=
  { id := "ta", provenance := some ⟨"S", "Source S", none, none⟩
    metadata := [(INGEST_ITEM_IDENTIFIER_KEY, "a")] }

/-- A previously ingested task of source `S` with item identifier `b`. -/
def cTaskB : Task :=
  { id := "tb", provenance := some ⟨"S", "Source S", none, none⟩
    metadata := [(INGEST_ITEM_IDENTIFIER_KEY, "b")] }

/-- Source `S`, re-presented with items `b` and `c`. -/
def cSourceS : IngestibleSource :=
  { identifier := "S", title := "Source S", url := none
    colorPaletteName := none
    items := [⟨"b", "spec-b"⟩, ⟨"c", "spec-c"⟩] }

/-- A previously ingested task of source `A` with item identifier `x`. -/
def cTaskX : Task :=
  { id := "tx", provenance := some ⟨"A", "Source A", none, none⟩
    metadata := [(INGEST_ITEM_IDENTIFIER_KEY, "x")] }

/-- Source `A`, re-presented with no items. -/
def cSourceA : IngestibleSource :=
  { identifier := "A", title := "Source A", url := none
    colorPaletteName := none, items := [] }

/-- Source `B`, new, presenting item `x` (moved from source `A`). -/
def cSourceB : IngestibleSource :=
  { identifier := "B", title := "Source B", url := some "http://b"
    colorPaletteName := none, items := [⟨"x", "spec-x"⟩] }

/-- A brand-new source presenting two items with the same identifier. -/
def cSourceDupNew : IngestibleSource :=
  { identifier := "N", title := "New source", url := none
    colorPaletteName := none
    items := [⟨"x", "spec-1"⟩, ⟨"x", "spec-2"⟩] }

/-- A previously ingested task of source `W` with item identifier `w`. -/
def cTaskW : Task :=
  { id := "tw", provenance := some ⟨"W", "Source W", none, none⟩
    metadata := [(INGEST_ITEM_IDENTIFIER_KEY, "w")] }

/-- Source `W`, re-presented with two items sharing an identifier. -/
def cSourceDupW : IngestibleSource :=
  { identifier := "W", title := "Source W", url := none
    colorPaletteName := none
    items := [⟨"x", "spec-1"⟩, ⟨"x", "spec-2"⟩] }

/-- A well-formed stored task of source `A`. -/
def cTaskA2 : Task :=
  { id := "tA", provenance := some ⟨"A", "Source A", none, none⟩
    metadata := [(INGEST_ITEM_IDENTIFIER_KEY, "w")] }

/-- A stored task of source `B` lacking the item-identifier metadata. -/
def cTaskB2 : Task :=
  { id := "tB", provenance := some ⟨"B", "Source B", none, none⟩
    metadata := [] }

/-- Source `A`, re-presented with duplicate item identifiers. -/
def cSourceADup : IngestibleSource :=
  { identifier := "A", title := "Source A", url := none
    colorPaletteName := none
    items := [⟨"x", "spec-1"⟩, ⟨"x", "spec-2"⟩] }

/-- Source `B`, re-presented with one item. -/
def cSourceB2 : IngestibleSource :=
  { identifier := "B", title := "Source B", url := none
    colorPaletteName := none, items := [⟨"z", "spec-z"⟩] }

/-- A stored task with no provenance (and no metadata). -/
def cNoProvTask : Task :=
  { id := "tfree", provenance := none, metadata := [] }

/-- Source `B`, with an existing entity for item `y`, now also presenting
item `x` (which simultaneously disappears from source `A`). -/
def cSourceBGroup : IngestibleSource :=
  { identifier := "B", title := "Source B2", url := none
    colorPaletteName := none
    items := [⟨"x", "spec-x"⟩, ⟨"y", "spec-y"⟩] }

/-- A previously ingested task of source `B` with item identifier `y`. -/
def cTaskY : Task :=
  { id := "ty", provenance := some ⟨"B", "Source B2", none, none⟩
    metadata := [(INGEST_ITEM_IDENTIFIER_KEY, "y")] }

/-- Entity record for task `a` with components `a` and `b` due at 50ms. -/
def cRecordA1 : EntityRecord :=
  { entity := { id := "a", isDeleted := false
                componentStates := [("a", ⟨50⟩), ("b", ⟨50⟩)] }
    lastEventID := "x", lastEventTimestampMillis := 5 }

/-- Entity record for task `a` after the update: component `b` removed,
due time 300ms. -/
def cRecordA2 : EntityRecord :=
  { entity := { id := "a", isDeleted := false
                componentStates := [("a", ⟨300⟩)] }
    lastEventID := "y", lastEventTimestampMillis := 20 }

/-- Transform inserting task `a`. -/
def cTransform1 : JMap EntityRecord → JMap EntityRecord :=
  fun _ => [("a", cRecordA1)]

/-- Transform updating task `a`. -/
def cTransform2 : JMap EntityRecord → JMap EntityRecord :=
  fun _ => [("a", cRecordA2)]

/-- A concrete scheduler configuration: five-minute initial interval,
doubling growth, one-year maximum. -/
def cSchedulerParams : SchedulerParams :=
  { initialIntervalMillis := 300000, growthFactor := 2
    maximumIntervalMillis := 31536000000 }

/-- A concrete current component scheduling state. -/
def cCurrentState : ComponentSchedulingState :=
  { intervalMillis := 600000, dueTimestampMillis := 1000, reviewCount := 3 }

/-! ## Association-list map lemmas -/

theorem jget_eq_none_iff {β : Type} (m : JMap β) (k : String) :
    jget m k = none ↔ k ∉ jkeys m := by
  induction m with
  | nil => simp [jget, jkeys]
  | cons p rest ih =>
    obtain ⟨k', v⟩ := p
    by_cases h : k' = k
    · subst h
      simp [jget, jkeys]
    · have h2 : ¬ k = k' := fun he => h he.symm
      simp only [jget, beq_iff_eq, if_neg h, jkeys, List.map_cons,
        List.mem_cons, ih]
      constructor
      · intro h1
        intro h3
        rcases h3 with h3 | h3
        · exact h2 h3
        · exact h1 h3
      · intro h1 h3
        exact h1 (Or.inr h3)

theorem jget_mem {β : Type} {m : JMap β} {k : String} {v : β}
    (h : jget m k = some v) : (k, v) ∈ m := by
  induction m with
  | nil => simp [jget] at h
  | cons p rest ih =>
    obtain ⟨k', v'⟩ := p
    by_cases hk : k' = k
    · subst hk
      simp only [jget, beq_self_eq_true, if_pos, Option.some.injEq] at h
      subst h
      exact List.mem_cons_self _ _
    · simp only [jget, beq_iff_eq, if_neg hk] at h
      exact List.mem_cons_of_mem _ (ih h)

theorem jget_mem_keys {β : Type} {m : JMap β} {k : String} {v : β}
    (h : jget m k = some v) : k ∈ jkeys m := by
  have h2 := jget_mem h
  simp only [jkeys, List.mem_map]
  exact ⟨(k, v), h2, rfl⟩

theorem jget_of_mem_nodup {β : Type} {m : JMap β} {k : String} {v : β}
    (hnd : (jkeys m).Nodup) (h : (k, v) ∈ m) : jget m k = some v := by
  induction m with
  | nil => simp at h
  | cons p rest ih =>
    obtain ⟨k', v'⟩ := p
    simp only [jkeys, List.map_cons, List.nodup_cons] at hnd
    rcases List.mem_cons.mp h with h1 | h1
    · cases h1
      simp [jget]
    · have hk : k' ≠ k := by
        intro he
        subst he
        exact hnd.1 (List.mem_map_of_mem Prod.fst h1)
      simp only [jget, beq_iff_eq, if_neg hk]
      exact ih hnd.2 h1

theorem jget_jset_self {β : Type} (m : JMap β) (k : String) (v : β) :
    jget (jset m k v) k = some v := by
  induction m with
  | nil => simp [jget, jset]
  | cons p rest ih =>
    obtain ⟨k', v'⟩ := p
    by_cases h : k' = k
    · subst h
      simp [jget, jset]
    · simp only [jset, beq_iff_eq, if_neg h, jget, ih]

theorem jget_jset_ne {β : Type} (m : JMap β) {k k' : String} (v : β)
    (h : k' ≠ k) : jget (jset m k v) k' = jget m k' := by
  have h' : ¬ k = k' := fun he => h he.symm
  induction m with
  | nil => simp [jget, jset, beq_iff_eq, h']
  | cons p rest ih =>
    obtain ⟨k'', v''⟩ := p
    by_cases h2 : k'' = k
    · subst h2
      simp only [jset, beq_self_eq_true, if_pos, jget, beq_iff_eq]
      rw [if_neg h', if_neg h']
    · simp only [jset, beq_iff_eq, if_neg h2, jget]
      by_cases h3 : k'' = k'
      · rw [if_pos h3, if_pos h3]
      · rw [if_neg h3, if_neg h3]
        exact ih

theorem mem_jkeys_jset {β : Type} (m : JMap β) (k k' : String) (v : β) :
    k' ∈ jkeys (jset m k v) ↔ k' ∈ jkeys m ∨ k' = k := by
  induction m with
  | nil => simp [jkeys, jset]
  | cons p rest ih =>
    obtain ⟨k'', v''⟩ := p
    by_cases h : k'' = k
    · subst h
      simp only [jset, beq_self_eq_true, if_pos, jkeys, List.map_cons,
        List.mem_cons]
      tauto
    · simp only [jset, beq_iff_eq, if_neg h, jkeys, List.map_cons,
        List.mem_cons] at ih ⊢
      rw [ih]
      tauto

theorem nodup_jkeys_jset {β : Type} {m : JMap β} (k : String) (v : β)
    (h : (jkeys m).Nodup) : (jkeys (jset m k v)).Nodup := by
  induction m with
  | nil => simp [jkeys, jset]
  | cons p rest ih =>
    obtain ⟨k'', v''⟩ := p
    simp only [jkeys, List.map_cons, List.nodup_cons] at h
    by_cases h2 : k'' = k
    · subst h2
      simp only [jset, beq_self_eq_true, if_pos, jkeys, List.map_cons,
        List.nodup_cons]
      exact h
    · simp only [jset, beq_iff_eq, if_neg h2, jkeys, List.map_cons,
        List.nodup_cons]
      constructor
      · intro hmem
        rcases (mem_jkeys_jset rest k k'' v).mp hmem with h3 | h3
        · exact h.1 h3
        · exact h2 h3
      · exact ih h.2

theorem mem_jset_elim {β : Type} {m : JMap β} {k : String} {v : β}
    {p : String × β} (h : p ∈ jset m k v) : p ∈ m ∨ p = (k, v) := by
  induction m with
  | nil =>
    simp only [jset, List.mem_singleton] at h
    exact Or.inr h
  | cons q rest ih =>
    obtain ⟨k', v'⟩ := q
    by_cases h2 : k' = k
    · subst h2
      simp only [jset, beq_self_eq_true, if_pos] at h
      rcases List.mem_cons.mp h with h3 | h3
      · exact Or.inr h3
      · exact Or.inl (List.mem_cons_of_mem _ h3)
    · simp only [jset, beq_iff_eq, if_neg h2] at h
      rcases List.mem_cons.mp h with h3 | h3
      · exact Or.inl (List.mem_cons.mpr (Or.inl h3))
      · rcases ih h3 with h4 | h4
        · exact Or.inl (List.mem_cons_of_mem _ h4)
        · exact Or.inr h4

theorem jget_jdel_self {β : Type} (m : JMap β) (k : String) :
    jget (jdel m k) k = none := by
  induction m with
  | nil => simp [jget, jdel]
  | cons p rest ih =>
    obtain ⟨k', v⟩ := p
    by_cases h : k' = k
    · subst h
      simp only [jdel, List.filter_cons, bne_self_eq_false,
        Bool.false_eq_true, if_neg, Bool.not_eq_true] at ih ⊢
      exact ih
    · have hb : (k' != k) = true := by
        simp [bne, beq_iff_eq, h]
      simp only [jdel, List.filter_cons, hb, if_pos, jget, beq_iff_eq,
        if_neg h] at ih ⊢
      exact ih

theorem jget_jdel_ne {β : Type} (m : JMap β) {k k' : String} (h : k' ≠ k) :
    jget (jdel m k) k' = jget m k' := by
  induction m with
  | nil => simp [jget, jdel]
  | cons p rest ih =>
    obtain ⟨k'', v⟩ := p
    by_cases h2 : k'' = k
    · subst h2
      have h3 : ¬ k'' = k' := fun he => h he.symm
      simp only [jdel, List.filter_cons, bne_self_eq_false,
        Bool.false_eq_true, if_neg, Bool.not_eq_true, jget, beq_iff_eq,
        if_neg h3] at ih ⊢
      exact ih
    · have hb : (k'' != k) = true := by
        simp [bne, beq_iff_eq, h2]
      simp only [jdel, List.filter_cons, hb, if_pos, jget, beq_iff_eq]
        at ih ⊢
      by_cases h3 : k'' = k'
      · rw [if_pos h3, if_pos h3]
      · rw [if_neg h3, if_neg h3]
        exact ih

theorem mem_jdel {β : Type} {m : JMap β} {k : String} {p : String × β}
    (h : p ∈ jdel m k) : p ∈ m :=
  List.mem_of_mem_filter h

theorem nodup_jkeys_jdel {β : Type} {m : JMap β} (k : String)
    (h : (jkeys m).Nodup) : (jkeys (jdel m k)).Nodup := by
  simp only [jkeys, jdel] at h ⊢
  exact (List.Sublist.map _ (List.filter_sublist m)).nodup h

theorem mem_jkeys_iff {β : Type} (m : JMap β) (k : String) :
    k ∈ jkeys m ↔ ∃ v, (k, v) ∈ m := by
  simp only [jkeys, List.mem_map]
  constructor
  · rintro ⟨⟨k', v⟩, hm, hk⟩
    exact ⟨v, by rwa [show k' = k from hk] at hm⟩
  · rintro ⟨v, hm⟩
    exact ⟨(k, v), hm, rfl⟩

/-! ## Counting lemmas -/

theorem countP_eq_one_of_unique {α : Type} {l : List α} {q : α → Bool}
    {a : α} (hnd : l.Nodup) (ha : a ∈ l) (hq : q a = true)
    (huniq : ∀ b ∈ l, q b = true → b = a) : l.countP q = 1 := by
  induction l with
  | nil => simp at ha
  | cons x rest ih =>
    rcases List.mem_cons.mp ha with h1 | h1
    · subst h1
      rw [List.countP_cons, if_pos hq]
      have hz : rest.countP q = 0 := by
        rw [List.countP_eq_zero]
        intro b hb hqb
        have hba := huniq b (List.mem_cons_of_mem _ hb) hqb
        subst hba
        exact ((List.nodup_cons.mp hnd).1 hb).elim
      omega
    · have hxa : x ≠ a := by
        intro he
        subst he
        exact ((List.nodup_cons.mp hnd).1 h1).elim
      have hqx : ¬ q x = true :=
        fun hqx => hxa (huniq x (List.mem_cons_self _ _) hqx)
      rw [List.countP_cons, if_neg hqx]
      have hr := ih (List.nodup_cons.mp hnd).2 h1
        (fun b hb hqb => huniq b (List.mem_cons_of_mem _ hb) hqb)
      omega

/-! ## Grouping lemmas -/

theorem jset_append {β : Type} {m : JMap β} {k : String} (v : β)
    (h : k ∉ jkeys m) : jset m k v = m ++ [(k, v)] := by
  induction m with
  | nil => simp [jset]
  | cons p rest ih =>
    obtain ⟨k', v'⟩ := p
    simp only [jkeys, List.map_cons, List.mem_cons] at h
    push_neg at h
    have hk : ¬ k' = k := fun he => h.1 he.symm
    simp only [jset, beq_iff_eq, if_neg hk, List.cons_append,
      List.cons.injEq, true_and]
    exact ih h.2

theorem matchingEntities_cons (sid : String) (e : Task)
    (rest : List Task) :
    matchingEntities sid (e :: rest) =
      if provMatches sid e then e :: matchingEntities sid rest
      else matchingEntities sid rest := by
  simp [matchingEntities, List.filter_cons]

theorem groupEntities_jget (entities : List Task) :
    ∀ (m : JMap (List Task)) (sid : String),
    jget (groupEntitiesByProvenanceIdentifiers entities m) sid =
      match jget m sid with
      | some ex => some (ex ++ matchingEntities sid entities)
      | none =>
        match matchingEntities sid entities with
        | [] => none
        | l => some l := by
  induction entities with
  | nil =>
    intro m sid
    cases hm : jget m sid <;>
      simp [groupEntitiesByProvenanceIdentifiers, matchingEntities, hm]
  | cons e rest ih =>
    intro m sid
    cases hprov : e.provenance with
    | none =>
      have hpm : provMatches sid e = false := by simp [provMatches, hprov]
      simp only [groupEntitiesByProvenanceIdentifiers, hprov]
      rw [ih m sid, matchingEntities_cons, hpm]
      simp
    | some p =>
      by_cases hpid : p.identifier = sid
      · subst hpid
        have hpm : provMatches p.identifier e = true := by
          simp [provMatches, hprov]
        simp only [groupEntitiesByProvenanceIdentifiers, hprov]
        cases hm : jget m p.identifier with
        | none =>
          simp only [hm]
          rw [ih _ p.identifier, jget_jset_self, matchingEntities_cons, hpm]
          simp
        | some ex =>
          simp only [hm]
          rw [ih _ p.identifier, jget_jset_self, matchingEntities_cons, hpm]
          simp
      · have hpm : provMatches sid e = false := by
          simp [provMatches, hprov, hpid]
        have hne : sid ≠ p.identifier := fun he => hpid he.symm
        simp only [groupEntitiesByProvenanceIdentifiers, hprov]
        cases hm : jget m p.identifier with
        | none =>
          simp only [hm]
          rw [ih _ sid, jget_jset_ne _ _ hne, matchingEntities_cons, hpm]
          simp
        | some ex =>
          simp only [hm]
          rw [ih _ sid, jget_jset_ne _ _ hne, matchingEntities_cons, hpm]
          simp

theorem groupEntities_skip_noProv (e : Task) (rest : List Task)
    (m : JMap (List Task)) (h : e.provenance = none) :
    groupEntitiesByProvenanceIdentifiers (e :: rest) m =
      groupEntitiesByProvenanceIdentifiers rest m := by
  simp [groupEntitiesByProvenanceIdentifiers, h]

theorem groupEntities_filter (entities : List Task) :
    ∀ m : JMap (List Task),
    groupEntitiesByProvenanceIdentifiers entities m =
      groupEntitiesByProvenanceIdentifiers
        (entities.filter (fun e => e.provenance.isSome)) m := by
  induction entities with
  | nil => intro m; rfl
  | cons e rest ih =>
    intro m
    cases hprov : e.provenance with
    | none =>
      rw [groupEntities_skip_noProv e rest m hprov, ih]
      simp [List.filter_cons, hprov]
    | some p =>
      have : e.provenance.isSome = true := by simp [hprov]
      simp only [List.filter_cons, this, if_pos]
      simp only [groupEntitiesByProvenanceIdentifiers, hprov]
      cases hm : jget m p.identifier <;> simp only [hm] <;> exact ih _

/-! ## `mapEntitiesByItemIdentifier` lemmas -/

theorem truthyItemID_destruct {e : Task} (h : truthyItemID e = true) :
    ∃ s, jget e.metadata INGEST_ITEM_IDENTIFIER_KEY = some s ∧ s ≠ "" ∧
      entityItemID e = s := by
  unfold truthyItemID truthyString at h
  cases hjg : jget e.metadata INGEST_ITEM_IDENTIFIER_KEY with
  | none => rw [hjg] at h; simp at h
  | some s =>
    rw [hjg] at h
    refine ⟨s, rfl, ?_, by simp [entityItemID, hjg]⟩
    simpa [bne_iff_ne] using h

theorem mapEntities_ok_char : ∀ (l : List Task) (m : JMap Task),
    (∀ e ∈ l, truthyItemID e = true) →
    (l.map entityItemID).Nodup →
    (∀ e ∈ l, entityItemID e ∉ jkeys m) →
    mapEntitiesByItemIdentifier l m =
      .ok (m ++ l.map (fun e => (entityItemID e, e))) := by
  intro l
  induction l with
  | nil => intro m _ _ _; simp [mapEntitiesByItemIdentifier]
  | cons e rest ih =>
    intro m hwf hnd hdisj
    obtain ⟨s, hjg, hs, hid⟩ := truthyItemID_destruct
      (hwf e (List.mem_cons_self _ _))
    have hsne : ¬ (s == "") = true := by simpa [beq_iff_eq] using hs
    simp only [mapEntitiesByItemIdentifier, hjg, hsne, Bool.false_eq_true,
      if_neg, Bool.not_eq_true]
    have hmem : s ∉ jkeys m := hid ▸ hdisj e (List.mem_cons_self _ _)
    rw [jset_append e hmem]
    simp only [List.map_cons, hid] at hnd
    have hrest := ih (m ++ [(s, e)])
      (fun e' he' => hwf e' (List.mem_cons_of_mem _ he'))
      (List.nodup_cons.mp hnd).2
      (fun e' he' => by
        have h1 : entityItemID e' ∉ jkeys m :=
          hdisj e' (List.mem_cons_of_mem _ he')
        have h2 : entityItemID e' ≠ s := by
          intro heq
          exact (List.nodup_cons.mp hnd).1
            (heq ▸ List.mem_map_of_mem entityItemID he')
        simp only [jkeys, List.map_append, List.mem_append, List.map_cons,
          List.map_nil, List.mem_singleton]
        rintro (h3 | h3)
        · exact h1 (by simpa [jkeys] using h3)
        · exact h2 h3)
    rw [hrest]
    simp [hid]

theorem mapEntities_ok_exists : ∀ (l : List Task) (m : JMap Task),
    (∀ e ∈ l, truthyItemID e = true) →
    ∃ m', mapEntitiesByItemIdentifier l m = .ok m' := by
  intro l
  induction l with
  | nil => intro m _; exact ⟨m, rfl⟩
  | cons e rest ih =>
    intro m hwf
    obtain ⟨s, hjg, hs, _⟩ := truthyItemID_destruct
      (hwf e (List.mem_cons_self _ _))
    have hsne : ¬ (s == "") = true := by simpa [beq_iff_eq] using hs
    simp only [mapEntitiesByItemIdentifier, hjg, hsne, Bool.false_eq_true,
      if_neg, Bool.not_eq_true]
    exact ih (jset m s e) (fun e' he' => hwf e' (List.mem_cons_of_mem _ he'))

theorem mapEntities_error : ∀ (l : List Task) (m : JMap Task) {e : Task},
    e ∈ l → truthyItemID e = false →
    mapEntitiesByItemIdentifier l m = .error .missingItemIdentifier := by
  intro l
  induction l with
  | nil => intro m e he _; simp at he
  | cons e0 rest ih =>
    intro m e he hf
    cases hjg : jget e0.metadata INGEST_ITEM_IDENTIFIER_KEY with
    | none => simp [mapEntitiesByItemIdentifier, hjg]
    | some s =>
      by_cases hs : s = ""
      · subst hs
        simp [mapEntitiesByItemIdentifier, hjg]
      · have hsne : ¬ (s == "") = true := by simpa [beq_iff_eq] using hs
        simp only [mapEntitiesByItemIdentifier, hjg, hsne,
          Bool.false_eq_true, if_neg, Bool.not_eq_true]
        have he0 : truthyItemID e0 = true := by
          simp [truthyItemID, truthyString, hjg, bne_iff_ne, hs]
        have hne : e ≠ e0 := by
          intro heq
          rw [heq, he0] at hf
          exact Bool.true_eq_false.mp hf
        rcases List.mem_cons.mp he with h1 | h1
        · exact (hne h1).elim
        · exact ih _ h1 hf

theorem mapEntities_error_only : ∀ (l : List Task) (m : JMap Task)
    {err : IngestError},
    mapEntitiesByItemIdentifier l m = .error err →
    err = .missingItemIdentifier := by
  intro l
  induction l with
  | nil => intro m err h; simp [mapEntitiesByItemIdentifier] at h
  | cons e rest ih =>
    intro m err h
    cases hjg : jget e.metadata INGEST_ITEM_IDENTIFIER_KEY with
    | none =>
      simp only [mapEntitiesByItemIdentifier, hjg, Except.error.injEq] at h
      exact h.symm
    | some s =>
      by_cases hs : s = ""
      · subst hs
        simp only [mapEntitiesByItemIdentifier, hjg, beq_self_eq_true,
          if_pos, Except.error.injEq] at h
        exact h.symm
      · have hsne : ¬ (s == "") = true := by simpa [beq_iff_eq] using hs
        simp only [mapEntitiesByItemIdentifier, hjg, hsne,
          Bool.false_eq_true, if_neg, Bool.not_eq_true] at h
        exact ih _ h

theorem mapEntities_entries (E : List Task) : ∀ (l : List Task)
    (m m' : JMap Task),
    (∀ e ∈ l, e ∈ E) →
    (∀ p ∈ m, p.2 ∈ E ∧
      jget p.2.metadata INGEST_ITEM_IDENTIFIER_KEY = some p.1 ∧ p.1 ≠ "") →
    mapEntitiesByItemIdentifier l m = .ok m' →
    ∀ p ∈ m', p.2 ∈ E ∧
      jget p.2.metadata INGEST_ITEM_IDENTIFIER_KEY = some p.1 ∧
      p.1 ≠ "" := by
  intro l
  induction l with
  | nil =>
    intro m m' _ hm h
    simp only [mapEntitiesByItemIdentifier, Except.ok.injEq] at h
    exact h ▸ hm
  | cons e rest ih =>
    intro m m' hel hm h
    cases hjg : jget e.metadata INGEST_ITEM_IDENTIFIER_KEY with
    | none => simp [mapEntitiesByItemIdentifier, hjg] at h
    | some s =>
      by_cases hs : s = ""
      · subst hs
        simp [mapEntitiesByItemIdentifier, hjg] at h
      · have hsne : ¬ (s == "") = true := by simpa [beq_iff_eq] using hs
        simp only [mapEntitiesByItemIdentifier, hjg, hsne,
          Bool.false_eq_true, if_neg, Bool.not_eq_true] at h
        refine ih _ _ (fun e' he' => hel e' (List.mem_cons_of_mem _ he'))
          ?_ h
        intro p hp
        rcases mem_jset_elim hp with h1 | h1
        · exact hm p h1
        · subst h1
          exact ⟨hel e (List.mem_cons_self _ _), hjg, hs⟩

theorem mapEntities_nodupKeys : ∀ (l : List Task) (m m' : JMap Task),
    (jkeys m).Nodup → mapEntitiesByItemIdentifier l m = .ok m' →
    (jkeys m').Nodup := by
  intro l
  induction l with
  | nil =>
    intro m m' hnd h
    simp only [mapEntitiesByItemIdentifier, Except.ok.injEq] at h
    exact h ▸ hnd
  | cons e rest ih =>
    intro m m' hnd h
    cases hjg : jget e.metadata INGEST_ITEM_IDENTIFIER_KEY with
    | none => simp [mapEntitiesByItemIdentifier, hjg] at h
    | some s =>
      by_cases hs : s = ""
      · subst hs
        simp [mapEntitiesByItemIdentifier, hjg] at h
      · have hsne : ¬ (s == "") = true := by simpa [beq_iff_eq] using hs
        simp only [mapEntitiesByItemIdentifier, hjg, hsne,
          Bool.false_eq_true, if_neg, Bool.not_eq_true] at h
        exact ih _ _ (nodup_jkeys_jset s e hnd) h

/-! ## `mapIngestibleItemsByItemIdentifier` lemmas -/

theorem mapIngestible_ok_char : ∀ (l : List IngestibleItem)
    (m : JMap IngestibleItem),
    (l.map (·.identifier)).Nodup →
    (∀ it ∈ l, it.identifier ∉ jkeys m) →
    mapIngestibleItemsByItemIdentifier l m =
      .ok (m ++ l.map (fun it => (it.identifier, it))) := by
  intro l
  induction l with
  | nil => intro m _ _; simp [mapIngestibleItemsByItemIdentifier]
  | cons it rest ih =>
    intro m hnd hdisj
    have hjg : jget m it.identifier = none :=
      (jget_eq_none_iff m it.identifier).mpr
        (hdisj it (List.mem_cons_self _ _))
    simp only [mapIngestibleItemsByItemIdentifier, hjg]
    rw [jset_append it (hdisj it (List.mem_cons_self _ _))]
    simp only [List.map_cons] at hnd
    have hrest := ih (m ++ [(it.identifier, it)])
      (List.nodup_cons.mp hnd).2
      (fun it' hit' => by
        have h1 : it'.identifier ∉ jkeys m :=
          hdisj it' (List.mem_cons_of_mem _ hit')
        have h2 : it'.identifier ≠ it.identifier := by
          intro heq
          exact (List.nodup_cons.mp hnd).1
            (heq ▸ List.mem_map_of_mem (·.identifier) hit')
        simp only [jkeys, List.map_append, List.mem_append, List.map_cons,
          List.map_nil, List.mem_singleton]
        rintro (h3 | h3)
        · exact h1 (by simpa [jkeys] using h3)
        · exact h2 h3)
    rw [hrest]
    simp

theorem mapIngestible_error : ∀ (l : List IngestibleItem)
    (m : JMap IngestibleItem),
    (¬ (l.map (·.identifier)).Nodup ∨
      ∃ it ∈ l, it.identifier ∈ jkeys m) →
    ∃ d, (∃ it ∈ l, it.identifier = d) ∧
      mapIngestibleItemsByItemIdentifier l m =
        .error (.duplicateItemIdentifier d) := by
  intro l
  induction l with
  | nil =>
    intro m h
    rcases h with h | ⟨it, hit, _⟩
    · simp at h
    · simp at hit
  | cons it rest ih =>
    intro m h
    cases hjg : jget m it.identifier with
    | some v =>
      exact ⟨it.identifier, ⟨it, List.mem_cons_self _ _, rfl⟩,
        by simp [mapIngestibleItemsByItemIdentifier, hjg]⟩
    | none =>
      have hnk : it.identifier ∉ jkeys m :=
        (jget_eq_none_iff m it.identifier).mp hjg
      have hrec : ¬ ((rest.map (·.identifier)).Nodup) ∨
          ∃ it' ∈ rest, it'.identifier ∈
            jkeys (jset m it.identifier it) := by
        rcases h with h | ⟨it0, hit0, hk0⟩
        · simp only [List.map_cons, List.nodup_cons] at h
          push_neg at h
          by_cases hmem : it.identifier ∈ rest.map (·.identifier)
          · obtain ⟨it', hit', heq⟩ := List.mem_map.mp hmem
            refine Or.inr ⟨it', hit', ?_⟩
            rw [heq]
            exact (mem_jkeys_jset m it.identifier it.identifier it).mpr
              (Or.inr rfl)
          · exact Or.inl (h hmem)
        · rcases List.mem_cons.mp hit0 with h1 | h1
          · exact ((h1 ▸ hnk) hk0).elim
          · exact Or.inr ⟨it0, h1,
              (mem_jkeys_jset m it.identifier it0.identifier it).mpr
                (Or.inl hk0)⟩
      obtain ⟨d, ⟨it', hit', hd⟩, herr⟩ := ih _ hrec
      exact ⟨d, ⟨it', List.mem_cons_of_mem _ hit', hd⟩,
        by simpa [mapIngestibleItemsByItemIdentifier, hjg] using herr⟩

theorem mapIngestible_entries : ∀ (l : List IngestibleItem)
    (m m' : JMap IngestibleItem),
    (∀ p ∈ m, p.1 = p.2.identifier) →
    mapIngestibleItemsByItemIdentifier l m = .ok m' →
    ∀ p ∈ m', p.1 = p.2.identifier := by
  intro l
  induction l with
  | nil =>
    intro m m' hm h
    simp only [mapIngestibleItemsByItemIdentifier, Except.ok.injEq] at h
    exact h ▸ hm
  | cons it rest ih =>
    intro m m' hm h
    cases hjg : jget m it.identifier with
    | some v => simp [mapIngestibleItemsByItemIdentifier, hjg] at h
    | none =>
      simp only [mapIngestibleItemsByItemIdentifier, hjg] at h
      refine ih _ _ ?_ h
      intro p hp
      rcases mem_jset_elim hp with h1 | h1
      · exact hm p h1
      · subst h1; rfl

theorem mapIngestible_nodupKeys : ∀ (l : List IngestibleItem)
    (m m' : JMap IngestibleItem),
    (jkeys m).Nodup → mapIngestibleItemsByItemIdentifier l m = .ok m' →
    (jkeys m').Nodup := by
  intro l
  induction l with
  | nil =>
    intro m m' hnd h
    simp only [mapIngestibleItemsByItemIdentifier, Except.ok.injEq] at h
    exact h ▸ hnd
  | cons it rest ih =>
    intro m m' hnd h
    cases hjg : jget m it.identifier with
    | some v => simp [mapIngestibleItemsByItemIdentifier, hjg] at h
    | none =>
      simp only [mapIngestibleItemsByItemIdentifier, hjg] at h
      exact ih _ _ (nodup_jkeys_jset it.identifier it hnd) h

/-! ## `addIngestEvents` lemmas -/

theorem addIngest_inv (source : IngestibleSource) (t : Int) :
    ∀ (imList : List (String × IngestibleItem)) (eMap : JMap Task)
      (ing : JMap TaskIngestEvent) (c : Nat),
    (∀ p ∈ imList, p.1 = p.2.identifier) → IngMapInv t ing →
    IngMapInv t (addIngestEvents source t imList eMap ing c).1 := by
  intro imList
  induction imList with
  | nil => intro eMap ing c _ hinv; exact hinv
  | cons q rest ih =>
    intro eMap ing c hid hinv
    obtain ⟨key, item⟩ := q
    have hkey : key = item.identifier := hid _ (List.mem_cons_self _ _)
    cases hjg : jget eMap key with
    | some v =>
      simp only [addIngestEvents, hjg]
      exact ih _ _ _ (fun p hp => hid p (List.mem_cons_of_mem _ hp)) hinv
    | none =>
      simp only [addIngestEvents, hjg]
      refine ih _ _ _ (fun p hp => hid p (List.mem_cons_of_mem _ hp)) ?_
      constructor
      · exact nodup_jkeys_jset _ _ hinv.1
      · intro p hp
        rcases mem_jset_elim hp with h1 | h1
        · exact hinv.2 p h1
        · subst h1
          exact ⟨by simp [createIngestTaskForSource, hkey], rfl⟩

theorem addIngest_get_skip (source : IngestibleSource) (t : Int) :
    ∀ (imList : List (String × IngestibleItem)) (eMap : JMap Task)
      (ing : JMap TaskIngestEvent) (c : Nat) (k : String),
    (k ∉ jkeys imList ∨ ¬ jget eMap k = none) →
    jget (addIngestEvents source t imList eMap ing c).1 k = jget ing k := by
  intro imList
  induction imList with
  | nil => intro eMap ing c k _; rfl
  | cons q rest ih =>
    intro eMap ing c k h
    obtain ⟨key, item⟩ := q
    have hrest : k ∉ jkeys rest ∨ ¬ jget eMap k = none := by
      rcases h with h | h
      · exact Or.inl (fun hm => h (by simp [jkeys] at hm ⊢; exact Or.inr hm))
      · exact Or.inr h
    cases hjg : jget eMap key with
    | some v =>
      simp only [addIngestEvents, hjg]
      exact ih _ _ _ _ hrest
    | none =>
      by_cases hk : key = k
      · subst hk
        rcases h with h | h
        · exact (h (by simp [jkeys])).elim
        · exact (h hjg).elim
      · simp only [addIngestEvents, hjg]
        rw [ih _ _ _ _ hrest, jget_jset_ne _ _ (fun he => hk he.symm)]

theorem addIngest_get_hit (source : IngestibleSource) (t : Int) :
    ∀ (imList : List (String × IngestibleItem)) (eMap : JMap Task)
      (ing : JMap TaskIngestEvent) (c : Nat) (k : String)
      (item : IngestibleItem),
    (jkeys imList).Nodup → (k, item) ∈ imList → jget eMap k = none →
    ∃ ev, jget (addIngestEvents source t imList eMap ing c).1 k =
      some ev := by
  intro imList
  induction imList with
  | nil => intro _ _ _ _ _ _ hm _; simp at hm
  | cons q rest ih =>
    intro eMap ing c k item hnd hm hjg
    obtain ⟨key, it⟩ := q
    have hnd2 : key ∉ jkeys rest ∧ (jkeys rest).Nodup := by
      simpa only [jkeys, List.map_cons, List.nodup_cons] using hnd
    rcases List.mem_cons.mp hm with h1 | h1
    · have hkey : key = k := (congrArg Prod.fst h1).symm
      subst hkey
      simp only [addIngestEvents, hjg]
      rw [addIngest_get_skip source t rest eMap _ _ key (Or.inl hnd2.1),
        jget_jset_self]
      exact ⟨_, rfl⟩
    · cases hjg2 : jget eMap key with
      | some v =>
        simp only [addIngestEvents, hjg2]
        exact ih _ _ _ _ _ hnd2.2 h1 hjg
      | none =>
        simp only [addIngestEvents, hjg2]
        exact ih _ _ _ _ _ hnd2.2 h1 hjg

/-! ## `addDeleteEvents` lemmas -/

theorem addDelete_inv (t : Int) (entities : List Task)
    (S : List IngestibleSource) :
    ∀ (eMapList : List (String × Task)) (iMap : JMap IngestibleItem)
      (del : JMap TaskUpdateDeletedEvent) (c : Nat),
    (∀ p ∈ eMapList, p.2 ∈ entities ∧
      jget p.2.metadata INGEST_ITEM_IDENTIFIER_KEY = some p.1 ∧ p.1 ≠ "" ∧
      ∃ s ∈ S, provMatches s.identifier p.2 = true) →
    DelMapInv entities S del →
    DelMapInv entities S (addDeleteEvents t eMapList iMap del c).1 := by
  intro eMapList
  induction eMapList with
  | nil => intro iMap del c _ hinv; exact hinv
  | cons q rest ih =>
    intro iMap del c hent hinv
    obtain ⟨key, task⟩ := q
    cases hjg : jget iMap key with
    | some v =>
      simp only [addDeleteEvents, hjg]
      exact ih _ _ _ (fun p hp => hent p (List.mem_cons_of_mem _ hp)) hinv
    | none =>
      simp only [addDeleteEvents, hjg]
      refine ih _ _ _ (fun p hp => hent p (List.mem_cons_of_mem _ hp)) ?_
      constructor
      · exact nodup_jkeys_jset _ _ hinv.1
      · intro p hp
        rcases mem_jset_elim hp with h1 | h1
        · exact hinv.2 p h1
        · subst h1
          obtain ⟨hmem, hjg2, hne, hs⟩ := hent _ (List.mem_cons_self _ _)
          exact ⟨task, hmem, rfl, hjg2, hne, hs⟩

theorem addDelete_get_skip (t : Int) :
    ∀ (eMapList : List (String × Task)) (iMap : JMap IngestibleItem)
      (del : JMap TaskUpdateDeletedEvent) (c : Nat) (k : String),
    (k ∉ jkeys eMapList ∨ ¬ jget iMap k = none) →
    jget (addDeleteEvents t eMapList iMap del c).1 k = jget del k := by
  intro eMapList
  induction eMapList with
  | nil => intro _ _ _ _ _; rfl
  | cons q rest ih =>
    intro iMap del c k h
    obtain ⟨key, task⟩ := q
    have hrest : k ∉ jkeys rest ∨ ¬ jget iMap k = none := by
      rcases h with h | h
      · exact Or.inl (fun hm => h (by simp [jkeys] at hm ⊢; exact Or.inr hm))
      · exact Or.inr h
    cases hjg : jget iMap key with
    | some v =>
      simp only [addDeleteEvents, hjg]
      exact ih _ _ _ _ hrest
    | none =>
      by_cases hk : key = k
      · subst hk
        rcases h with h | h
        · exact (h (by simp [jkeys])).elim
        · exact (h hjg).elim
      · simp only [addDeleteEvents, hjg]
        rw [ih _ _ _ _ hrest, jget_jset_ne _ _ (fun he => hk he.symm)]

theorem addDelete_get_hit (t : Int) :
    ∀ (eMapList : List (String × Task)) (iMap : JMap IngestibleItem)
      (del : JMap TaskUpdateDeletedEvent) (c : Nat) (k : String)
      (task : Task),
    (jkeys eMapList).Nodup → (k, task) ∈ eMapList → jget iMap k = none →
    ∃ dev, jget (addDeleteEvents t eMapList iMap del c).1 k = some dev ∧
      dev.entityID = task.id ∧ dev.isDeleted = true ∧
      dev.timestampMillis = t := by
  intro eMapList
  induction eMapList with
  | nil => intro _ _ _ _ _ _ hm _; simp at hm
  | cons q rest ih =>
    intro iMap del c k task hnd hm hjg
    obtain ⟨key, task'⟩ := q
    have hnd2 : key ∉ jkeys rest ∧ (jkeys rest).Nodup := by
      simpa only [jkeys, List.map_cons, List.nodup_cons] using hnd
    rcases List.mem_cons.mp hm with h1 | h1
    · have hkey : key = k := (congrArg Prod.fst h1).symm
      have htask : task' = task := (congrArg Prod.snd h1).symm
      subst hkey
      subst htask
      simp only [addDeleteEvents, hjg]
      rw [addDelete_get_skip t rest iMap _ _ key (Or.inl hnd2.1),
        jget_jset_self]
      exact ⟨_, rfl, rfl, rfl, rfl⟩
    · cases hjg2 : jget iMap key with
      | some v =>
        simp only [addDeleteEvents, hjg2]
        exact ih _ _ _ _ _ hnd2.2 h1 hjg
      | none =>
        simp only [addDeleteEvents, hjg2]
        exact ih _ _ _ _ _ hnd2.2 h1 hjg

/-! ## `ingestNewSource` lemmas -/

theorem ingestNewSource_inv (source : IngestibleSource) (t : Int) :
    ∀ (l : List IngestibleItem) (ing : JMap TaskIngestEvent) (c : Nat),
    IngMapInv t ing →
    IngMapInv t (ingestNewSource source t l ing c).1 := by
  intro l
  induction l with
  | nil => intro ing c hinv; exact hinv
  | cons item rest ih =>
    intro ing c hinv
    simp only [ingestNewSource]
    refine ih _ _ ?_
    constructor
    · exact nodup_jkeys_jset _ _ hinv.1
    · intro p hp
      rcases mem_jset_elim hp with h1 | h1
      · exact hinv.2 p h1
      · subst h1
        exact ⟨by simp [createIngestTaskForSource], rfl⟩

theorem ingestNewSource_char (source : IngestibleSource) (t : Int) :
    ∀ (l : List IngestibleItem) (ing : JMap TaskIngestEvent) (c : Nat),
    (l.map (·.identifier)).Nodup →
    (∀ it ∈ l, it.identifier ∉ jkeys ing) →
    (ingestNewSource source t l ing c).1 =
      ing ++ newIngestEntries source t c l := by
  intro l
  induction l with
  | nil => intro ing c _ _; simp [ingestNewSource, newIngestEntries]
  | cons item rest ih =>
    intro ing c hnd hdisj
    simp only [ingestNewSource, newIngestEntries]
    rw [jset_append _ (hdisj item (List.mem_cons_self _ _))]
    simp only [List.map_cons] at hnd
    have hc2 : (createIngestTaskForSource source t item c).2 = c + 2 := rfl
    rw [hc2]
    rw [ih (ing ++ [(item.identifier,
        (createIngestTaskForSource source t item c).1)]) (c + 2)
      (List.nodup_cons.mp hnd).2
      (fun it' hit' => by
        have h1 : it'.identifier ∉ jkeys ing :=
          hdisj it' (List.mem_cons_of_mem _ hit')
        have h2 : it'.identifier ≠ item.identifier := by
          intro heq
          exact (List.nodup_cons.mp hnd).1
            (heq ▸ List.mem_map_of_mem (·.identifier) hit')
        simp only [jkeys, List.map_append, List.mem_append, List.map_cons,
          List.map_nil, List.mem_singleton]
        rintro (h3 | h3)
        · exact h1 (by simpa [jkeys] using h3)
        · exact h2 h3)]
    simp

/-! ## Move-pass lemmas -/

theorem jget_stripKeys {β : Type} : ∀ (ks : List String) (m : JMap β)
    (k : String),
    jget (stripKeys m ks) k = if k ∈ ks then none else jget m k := by
  intro ks
  induction ks with
  | nil => intro m k; simp [stripKeys]
  | cons k' rest ih =>
    intro m k
    simp only [stripKeys]
    rw [ih]
    by_cases h : k ∈ rest
    · simp [h]
    · by_cases h2 : k = k'
      · subst h2
        simp [h, jget_jdel_self]
      · simp [h, h2, jget_jdel_ne m h2]

theorem mem_stripKeys {β : Type} : ∀ (ks : List String) (m : JMap β)
    (p : String × β), p ∈ stripKeys m ks → p ∈ m ∧ p.1 ∉ ks := by
  intro ks
  induction ks with
  | nil => intro m p h; exact ⟨h, by simp⟩
  | cons k' rest ih =>
    intro m p h
    simp only [stripKeys] at h
    obtain ⟨h1, h2⟩ := ih _ _ h
    have h3 := List.mem_filter.mp h1
    refine ⟨h3.1, ?_⟩
    simp only [List.mem_cons]
    rintro (h4 | h4)
    · have h5 : p.1 ≠ k' := by simpa [bne_iff_ne] using h3.2
      exact h5 h4
    · exact h2 h4

theorem nodup_stripKeys {β : Type} : ∀ (ks : List String) (m : JMap β),
    (jkeys m).Nodup → (jkeys (stripKeys m ks)).Nodup := by
  intro ks
  induction ks with
  | nil => intro m h; exact h
  | cons k' rest ih =>
    intro m h
    simp only [stripKeys]
    exact ih _ (nodup_jkeys_jdel k' h)

theorem movePassHits_congr :
    ∀ (l : List (String × TaskIngestEvent))
      (d1 d2 : JMap TaskUpdateDeletedEvent),
    (∀ p ∈ l, jget d1 p.1 = jget d2 p.1) →
    movePassHits d1 l = movePassHits d2 l := by
  intro l
  induction l with
  | nil => intro d1 d2 _; rfl
  | cons p rest ih =>
    intro d1 d2 h
    obtain ⟨k, ie⟩ := p
    have hk := h (k, ie) (List.mem_cons_self _ _)
    simp only [movePassHits, hk]
    cases jget d2 k <;>
      simp [ih d1 d2 (fun q hq => h q (List.mem_cons_of_mem _ hq))]

theorem movePassUpdates_congr :
    ∀ (l : List (String × TaskIngestEvent))
      (d1 d2 : JMap TaskUpdateDeletedEvent) (c : Nat),
    (∀ p ∈ l, jget d1 p.1 = jget d2 p.1) →
    movePassUpdates d1 c l = movePassUpdates d2 c l := by
  intro l
  induction l with
  | nil => intro d1 d2 c _; rfl
  | cons p rest ih =>
    intro d1 d2 c h
    obtain ⟨k, ie⟩ := p
    have hk := h (k, ie) (List.mem_cons_self _ _)
    simp only [movePassUpdates, hk]
    cases jget d2 k <;>
      simp [ih d1 d2 _ (fun q hq => h q (List.mem_cons_of_mem _ hq)),
        ih d1 d2 _ (fun q hq => h q (List.mem_cons_of_mem _ hq))]

theorem movePass_char :
    ∀ (l : List (String × TaskIngestEvent)) (ing : JMap TaskIngestEvent)
      (del : JMap TaskUpdateDeletedEvent)
      (ups : List TaskUpdateProvenanceEvent) (c : Nat),
    (jkeys l).Nodup →
    (movePass l ing del ups c).1 =
      stripKeys ing (jkeys (movePassHits del l)) ∧
    (movePass l ing del ups c).2.1 =
      stripKeys del (jkeys (movePassHits del l)) ∧
    (movePass l ing del ups c).2.2.1 = ups ++ movePassUpdates del c l := by
  intro l
  induction l with
  | nil =>
    intro ing del ups c _
    simp [movePass, movePassHits, movePassUpdates, stripKeys, jkeys]
  | cons p rest ih =>
    intro ing del ups c hnd
    obtain ⟨k, ie⟩ := p
    have hnd2 : k ∉ jkeys rest ∧ (jkeys rest).Nodup := by
      simpa only [jkeys, List.map_cons, List.nodup_cons] using hnd
    cases hd : jget del k with
    | none =>
      simp only [movePass, hd, movePassHits, movePassUpdates]
      exact ih ing del ups c hnd2.2
    | some de =>
      simp only [movePass, hd, movePassHits, movePassUpdates]
      have hcongr : ∀ q ∈ rest, jget (jdel del k) q.1 = jget del q.1 := by
        intro q hq
        have hqk : q.1 ≠ k := by
          intro he
          exact hnd2.1 (he ▸ List.mem_map_of_mem Prod.fst hq)
        exact jget_jdel_ne del hqk
      obtain ⟨ih1, ih2, ih3⟩ := ih (jdel ing k) (jdel del k)
        (ups ++ [(createUpdateProvenanceEvent de.entityID ie c).1])
        (createUpdateProvenanceEvent de.entityID ie c).2 hnd2.2
      refine ⟨?_, ?_, ?_⟩
      · rw [ih1, movePassHits_congr rest _ _ hcongr]
        simp [jkeys, stripKeys]
      · rw [ih2, movePassHits_congr rest _ _ hcongr]
        simp [jkeys, stripKeys]
      · rw [ih3, movePassUpdates_congr rest _ _ _ hcongr]
        simp [createUpdateProvenanceEvent]

theorem movePassHits_mem :
    ∀ (l : List (String × TaskIngestEvent))
      (del : JMap TaskUpdateDeletedEvent) (p : String × TaskIngestEvent),
    p ∈ movePassHits del l ↔ p ∈ l ∧ (jget del p.1).isSome := by
  intro l
  induction l with
  | nil => intro del p; simp [movePassHits]
  | cons q rest ih =>
    intro del p
    obtain ⟨k, ie⟩ := q
    cases hd : jget del k with
    | none =>
      simp only [movePassHits, hd]
      rw [ih]
      constructor
      · rintro ⟨h1, h2⟩
        exact ⟨List.mem_cons_of_mem _ h1, h2⟩
      · rintro ⟨h1, h2⟩
        rcases List.mem_cons.mp h1 with h3 | h3
        · subst h3
          simp [hd] at h2
        · exact ⟨h3, h2⟩
    | some de =>
      simp only [movePassHits, hd, List.mem_cons]
      rw [ih]
      constructor
      · rintro (h1 | ⟨h1, h2⟩)
        · subst h1
          exact ⟨Or.inl rfl, by simp [hd]⟩
        · exact ⟨Or.inr h1, h2⟩
      · rintro ⟨h1 | h1, h2⟩
        · exact Or.inl h1
        · exact Or.inr ⟨h1, h2⟩

theorem movePassUpdates_mem :
    ∀ (l : List (String × TaskIngestEvent))
      (del : JMap TaskUpdateDeletedEvent) (c : Nat)
      (u : TaskUpdateProvenanceEvent),
    u ∈ movePassUpdates del c l →
    ∃ p ∈ l, ∃ de, jget del p.1 = some de ∧ u.entityID = de.entityID ∧
      u.timestampMillis = p.2.timestampMillis ∧
      u.provenance = p.2.provenance := by
  intro l
  induction l with
  | nil => intro del c u h; simp [movePassUpdates] at h
  | cons q rest ih =>
    intro del c u h
    obtain ⟨k, ie⟩ := q
    cases hd : jget del k with
    | none =>
      simp only [movePassUpdates, hd] at h
      obtain ⟨p, hp, hrest⟩ := ih del c u h
      exact ⟨p, List.mem_cons_of_mem _ hp, hrest⟩
    | some de =>
      simp only [movePassUpdates, hd] at h
      rcases List.mem_cons.mp h with h1 | h1
      · subst h1
        exact ⟨(k, ie), List.mem_cons_self _ _, de, hd, rfl, rfl, rfl⟩
      · obtain ⟨p, hp, hrest⟩ := ih del _ u h1
        exact ⟨p, List.mem_cons_of_mem _ hp, hrest⟩

theorem movePassUpdates_countP (eid : String) (prov : TaskProvenance)
    (ts : Int) :
    ∀ (l : List (String × TaskIngestEvent))
      (del : JMap TaskUpdateDeletedEvent) (c : Nat),
    (movePassUpdates del c l).countP
      (fun u => u.entityID == eid && decide (u.provenance = prov) &&
        decide (u.timestampMillis = ts)) =
    l.countP (fun p =>
      match jget del p.1 with
      | some de => de.entityID == eid && decide (p.2.provenance = prov) &&
          decide (p.2.timestampMillis = ts)
      | none => false) := by
  intro l
  induction l with
  | nil => intro del c; rfl
  | cons q rest ih =>
    intro del c
    obtain ⟨k, ie⟩ := q
    cases hd : jget del k with
    | none =>
      simp only [movePassUpdates, hd, List.countP_cons, hd]
      rw [ih]
      simp [hd]
    | some de =>
      simp only [movePassUpdates, hd, List.countP_cons]
      rw [ih]
      simp [hd, createUpdateProvenanceEvent]

/-! ## `processSources` lemmas -/

theorem group_some_eq_matching {entities : List Task} {sid : String}
    {g : List Task}
    (h : jget (groupEntitiesByProvenanceIdentifiers entities []) sid =
      some g) : g = matchingEntities sid entities := by
  have hchar := groupEntities_jget entities [] sid
  rw [h] at hchar
  cases hmat : matchingEntities sid entities with
  | nil =>
    rw [hmat] at hchar
    simp [jget] at hchar
  | cons e rest =>
    rw [hmat] at hchar
    simp only [jget] at hchar
    exact (Option.some.injEq _ _).mp hchar

theorem group_matching_nonempty {entities : List Task} {sid : String}
    (h : matchingEntities sid entities ≠ []) :
    jget (groupEntitiesByProvenanceIdentifiers entities []) sid =
      some (matchingEntities sid entities) := by
  have hchar := groupEntities_jget entities [] sid
  cases hmat : matchingEntities sid entities with
  | nil => exact (h hmat).elim
  | cons e rest =>
    rw [hmat] at hchar
    simpa only [jget] using hchar

theorem group_matching_empty {entities : List Task} {sid : String}
    (h : matchingEntities sid entities = []) :
    jget (groupEntitiesByProvenanceIdentifiers entities []) sid = none := by
  have hchar := groupEntities_jget entities [] sid
  rw [h] at hchar
  simpa only [jget] using hchar

theorem processSources_inv (entities : List Task) (t : Int)
    (S : List IngestibleSource) :
    ∀ (sources : List IngestibleSource) (ing : JMap TaskIngestEvent)
      (del : JMap TaskUpdateDeletedEvent) (c : Nat)
      (ing' : JMap TaskIngestEvent) (del' : JMap TaskUpdateDeletedEvent)
      (c' : Nat),
    (∀ s ∈ sources, s ∈ S) → IngMapInv t ing → DelMapInv entities S del →
    processSources (groupEntitiesByProvenanceIdentifiers entities []) t
      sources ing del c = .ok (ing', del', c') →
    IngMapInv t ing' ∧ DelMapInv entities S del' := by
  intro sources
  induction sources with
  | nil =>
    intro ing del c ing' del' c' _ hii hdi h
    simp only [processSources, Except.ok.injEq, Prod.mk.injEq] at h
    exact ⟨h.1 ▸ hii, h.2.1 ▸ hdi⟩
  | cons s rest ih =>
    intro ing del c ing' del' c' hS hii hdi h
    cases hgrp : jget (groupEntitiesByProvenanceIdentifiers entities [])
        s.identifier with
    | none =>
      simp only [processSources, hgrp] at h
      exact ih _ _ _ _ _ _ (fun s' hs' => hS s' (List.mem_cons_of_mem _ hs'))
        (ingestNewSource_inv s t s.items ing c hii) hdi h
    | some g =>
      cases hme : mapEntitiesByItemIdentifier g [] with
      | error err => simp [processSources, hgrp, hme] at h
      | ok eMap =>
        cases hmi : mapIngestibleItemsByItemIdentifier s.items [] with
        | error err => simp [processSources, hgrp, hme, hmi] at h
        | ok iMap =>
          simp only [processSources, hgrp, hme, hmi] at h
          have hiMap : ∀ p ∈ iMap, p.1 = p.2.identifier :=
            mapIngestible_entries s.items [] iMap (by simp) hmi
          have hg : g = matchingEntities s.identifier entities :=
            group_some_eq_matching hgrp
          have heMap : ∀ p ∈ eMap, p.2 ∈ entities ∧
              jget p.2.metadata INGEST_ITEM_IDENTIFIER_KEY = some p.1 ∧
              p.1 ≠ "" ∧
              ∃ s' ∈ S, provMatches s'.identifier p.2 = true := by
            intro p hp
            have h1 := mapEntities_entries g g [] eMap (fun e he => he)
              (by simp) hme p hp
            have h2 : p.2 ∈ entities ∧
                provMatches s.identifier p.2 = true := by
              have := h1.1
              rw [hg] at this
              exact ⟨(List.mem_filter.mp this).1,
                (List.mem_filter.mp this).2⟩
            exact ⟨h2.1, h1.2.1, h1.2.2,
              s, hS s (List.mem_cons_self _ _), h2.2⟩
          refine ih _ _ _ _ _ _
            (fun s' hs' => hS s' (List.mem_cons_of_mem _ hs')) ?_ ?_ h
          · exact addIngest_inv s t iMap eMap ing c hiMap hii
          · exact addDelete_inv t entities S eMap iMap del _ heMap hdi

theorem processSources_missing (entities : List Task) (t : Int) :
    ∀ (sources : List IngestibleSource) (ing : JMap TaskIngestEvent)
      (del : JMap TaskUpdateDeletedEvent) (c : Nat)
      (s : IngestibleSource) (e : Task),
    s ∈ sources → e ∈ entities → provMatches s.identifier e = true →
    truthyItemID e = false →
    (∀ s' ∈ sources, ((s'.items.map (·.identifier)).Nodup)) →
    processSources (groupEntitiesByProvenanceIdentifiers entities []) t
      sources ing del c = .error .missingItemIdentifier := by
  intro sources
  induction sources with
  | nil => intro _ _ _ _ _ hs _ _ _ _; simp at hs
  | cons s0 rest ih =>
    intro ing del c s e hs he hm hf hnodup
    rcases List.mem_cons.mp hs with h1 | h1
    · subst h1
      have hmat : e ∈ matchingEntities s.identifier entities :=
        List.mem_filter.mpr ⟨he, hm⟩
      have hne : matchingEntities s.identifier entities ≠ [] := by
        intro h0
        rw [h0] at hmat
        simp at hmat
      have hgrp := group_matching_nonempty hne
      have hmiss := mapEntities_error
        (matchingEntities s.identifier entities) ([] : JMap Task) hmat hf
      simp [processSources, hgrp, hmiss]
    · cases hgrp : jget (groupEntitiesByProvenanceIdentifiers entities [])
          s0.identifier with
      | none =>
        simp only [processSources, hgrp]
        exact ih _ _ _ s e h1 he hm hf
          (fun s' hs' => hnodup s' (List.mem_cons_of_mem _ hs'))
      | some g =>
        cases hme : mapEntitiesByItemIdentifier g [] with
        | error err =>
          have herr := mapEntities_error_only g [] hme
          subst herr
          simp [processSources, hgrp, hme]
        | ok eMap =>
          cases hmi : mapIngestibleItemsByItemIdentifier s0.items [] with
          | error err =>
            rw [mapIngestible_ok_char s0.items []
              (hnodup s0 (List.mem_cons_self _ _)) (by simp [jkeys])] at hmi
            exact absurd hmi (by simp)
          | ok iMap =>
            simp only [processSources, hgrp, hme, hmi]
            exact ih _ _ _ s e h1 he hm hf
              (fun s' hs' => hnodup s' (List.mem_cons_of_mem _ hs'))

theorem delMapInv_inj {entities : List Task} {S : List IngestibleSource}
    {del : JMap TaskUpdateDeletedEvent}
    (hinv : DelMapInv entities S del)
    (hids : (entities.map (·.id)).Nodup) :
    ∀ p ∈ del, ∀ q ∈ del, p.2.entityID = q.2.entityID → p.1 = q.1 := by
  intro p hp q hq heq
  obtain ⟨e, he, hpe, hpjg, _, _⟩ := hinv.2 p hp
  obtain ⟨f, hf, hqe, hqjg, _, _⟩ := hinv.2 q hq
  have hef : e = f := by
    have hid : e.id = f.id := by rw [← hpe, ← hqe, heq]
    exact List.inj_on_of_nodup_map hids he hf hid
  subst hef
  rw [hpjg] at hqjg
  exact (Option.some.injEq _ _).mp hqjg

/-! ## Claim theorems -/

/-- C5: `ingestSources` never mutates the store.  Its only interaction with
the store is the read-only `listEntities` query: running it against a store
returns the pure reconciliation result of the listed entities together
with the store unchanged — no entity record, event row, or derived row
changes. -/
theorem ingestSources_store_frame (sources : List IngestibleSource)
    (store : OrbitStore) (timeMillis : Int) :
    ingestSourcesFromStore sources store timeMillis =
      (ingestSources sources store.taskEntities timeMillis, store) := rfl

/-- C8: from any current scheduling state whose interval does not exceed
the configured maximum, a `Remembered` outcome yields an interval at least
as large (growth by a factor, bounded by the maximum interval), and a
`Forgotten` outcome resets the interval to the initial interval. -/
theorem nextState_interval_monotone_and_reset (params : SchedulerParams)
    (cur : ComponentSchedulingState) (ts : Int)
    (hgrow : 1 ≤ params.growthFactor)
    (hbound : cur.intervalMillis ≤ params.maximumIntervalMillis) :
    cur.intervalMillis ≤
      (nextState params (some cur) .remembered ts).intervalMillis ∧
    (nextState params (some cur) .remembered ts).intervalMillis ≤
      params.maximumIntervalMillis ∧
    (nextState params (some cur) .forgotten ts).intervalMillis =
      params.initialIntervalMillis := by
  refine ⟨?_, ?_, rfl⟩
  · simp only [nextState]
    exact le_min hbound (Nat.le_mul_of_pos_right _ hgrow)
  · simp only [nextState]
    exact min_le_left _ _

/-- Witness for C8 at a concrete configuration and state. -/
theorem nextState_interval_monotone_and_reset_witness :
    1 ≤ cSchedulerParams.growthFactor ∧
    cCurrentState.intervalMillis ≤
      cSchedulerParams.maximumIntervalMillis ∧
    (cCurrentState.intervalMillis ≤
      (nextState cSchedulerParams (some cCurrentState) .remembered
        2000).intervalMillis ∧
    (nextState cSchedulerParams (some cCurrentState) .remembered
      2000).intervalMillis ≤ cSchedulerParams.maximumIntervalMillis ∧
    (nextState cSchedulerParams (some cCurrentState) .forgotten
      2000).intervalMillis = cSchedulerParams.initialIntervalMillis) :=
  ⟨by decide, by decide,
    nextState_interval_monotone_and_reset cSchedulerParams cCurrentState
      2000 (by decide) (by decide)⟩

/-- C9: a stored task without provenance is invisible to reconciliation:
removing it from the entity list (first conjunct), or restricting the list
to entities with provenance (second conjunct), leaves the result of
`ingestSources` unchanged — so such an entity never yields deletion or
provenance-update events and never triggers the missing-item-identifier
error, and sources are matched against entities only through provenance
identifiers. -/
theorem ingestSources_ignores_provenance_free_entities :
    (∀ (sources : List IngestibleSource) (e : Task)
      (entities : List Task) (t : Int),
      e.provenance = none →
      ingestSources sources (e :: entities) t =
        ingestSources sources entities t) ∧
    (∀ (sources : List IngestibleSource) (entities : List Task) (t : Int),
      ingestSources sources entities t =
        ingestSources sources
          (entities.filter (fun e => e.provenance.isSome)) t) := by
  constructor
  · intro sources e entities t h
    simp only [ingestSources]
    rw [groupEntities_skip_noProv e entities [] h]
  · intro sources entities t
    simp only [ingestSources]
    rw [← groupEntities_filter]

/-- Witness for C9: a provenance-free task with no metadata contributes
nothing to a reconciliation run. -/
theorem ingestSources_ignores_provenance_free_entities_witness :
    cNoProvTask.provenance = none ∧
    ingestSources [cSourceS] (cNoProvTask :: [cTaskA, cTaskB]) 77 =
      ingestSources [cSourceS] [cTaskA, cTaskB] 77 :=
  ⟨rfl, ingestSources_ignores_provenance_free_entities.1 [cSourceS]
    cNoProvTask [cTaskA, cTaskB] 77 rfl⟩

theorem movePassHits_del_nil :
    ∀ l : List (String × TaskIngestEvent), movePassHits [] l = [] := by
  intro l
  induction l with
  | nil => rfl
  | cons p rest ih =>
    obtain ⟨k, ie⟩ := p
    simpa [movePassHits, jget] using ih

theorem movePassUpdates_del_nil :
    ∀ (l : List (String × TaskIngestEvent)) (c : Nat),
    movePassUpdates [] c l = [] := by
  intro l
  induction l with
  | nil => intro c; rfl
  | cons p rest ih =>
    intro c
    obtain ⟨k, ie⟩ := p
    simpa [movePassUpdates, jget] using ih c

theorem enumFrom_shift {α : Type} :
    ∀ (l : List α) (n : Nat),
    enumFrom (n + 1) l = (enumFrom n l).map (fun p => (p.1 + 1, p.2)) := by
  intro l
  induction l with
  | nil => intro n; rfl
  | cons a rest ih =>
    intro n
    simp only [enumFrom, List.map_cons]
    exact congrArg _ (ih (n + 1))

theorem newIngestEntries_enum (s : IngestibleSource) (t : Int) :
    ∀ (l : List IngestibleItem) (c : Nat),
    newIngestEntries s t c l =
      (enumFrom 0 l).map (fun p => (p.2.identifier,
        (createIngestTaskForSource s t p.2 (c + 2 * p.1)).1)) := by
  intro l
  induction l with
  | nil => intro c; rfl
  | cons item rest ih =>
    intro c
    simp only [newIngestEntries, enumFrom, List.map_cons, Nat.mul_zero,
      Nat.add_zero, List.cons.injEq, true_and]
    rw [ih (c + 2), enumFrom_shift rest 0, List.map_map]
    apply List.map_congr_left
    intro p _
    have harith : c + 2 + 2 * p.1 = c + 2 * (p.1 + 1) := by ring
    simp [Function.comp, harith]

theorem newIngestEntries_keys (s : IngestibleSource) (t : Int) :
    ∀ (l : List IngestibleItem) (c : Nat),
    jkeys (newIngestEntries s t c l) = l.map (·.identifier) := by
  intro l
  induction l with
  | nil => intro c; rfl
  | cons item rest ih =>
    intro c
    simp only [newIngestEntries, jkeys, List.map_cons] at ih ⊢
    exact congrArg _ (ih (c + 2))

/-- C3 counterexample: a brand-new source (no existing entities for its
identifier) presenting two items with the same identifier `x` does not
fail with `DuplicateItemIdentifierError` — the call succeeds and silently
collapses the duplicates into the single (last) ingest event. -/
theorem ingestSources_new_source_duplicate_ok :
    cSourceDupNew.items.length = 2 ∧
    cSourceDupNew.items.map (·.identifier) = ["x", "x"] ∧
    matchingEntities cSourceDupNew.identifier [] = [] ∧
    ingestSources [cSourceDupNew] [] 0 ≠
      .error (.duplicateItemIdentifier "x") ∧
    ingestSources [cSourceDupNew] [] 0 =
      .ok [.taskIngest
        { id := generateUniqueID 2, spec := "spec-2"
          entityID := generateUniqueID 3, timestampMillis := 0
          metadata := [(INGEST_ITEM_IDENTIFIER_KEY, "x")]
          provenance := sourceProvenance cSourceDupNew }] := by
  refine ⟨rfl, rfl, rfl, ?_, by decide⟩
  decide

/-- C3 (amended): when the incoming source's identifier matches a group of
existing entities (each carrying its item-identifier metadata), a source
presenting two items sharing an identifier makes the call fail with
`DuplicateItemIdentifierError`, naming one of the source's item
identifiers.  (For a brand-new source the duplicate check is skipped, and
an error raised by an earlier source can preempt this one.) -/
theorem ingestSources_duplicate_error_existing_group
    (s : IngestibleSource) (entities : List Task) (t : Int)
    (hg : matchingEntities s.identifier entities ≠ [])
    (hwf : ∀ e ∈ matchingEntities s.identifier entities,
      truthyItemID e = true)
    (hdup : ¬ (s.items.map (·.identifier)).Nodup) :
    ∃ d, (∃ it ∈ s.items, it.identifier = d) ∧
      ingestSources [s] entities t =
        .error (.duplicateItemIdentifier d) := by
  obtain ⟨eMap, hme⟩ := mapEntities_ok_exists
    (matchingEntities s.identifier entities) [] hwf
  obtain ⟨d, hd, herr⟩ := mapIngestible_error s.items [] (Or.inl hdup)
  refine ⟨d, hd, ?_⟩
  simp only [ingestSources, processSources, group_matching_nonempty hg,
    hme, herr]

/-- Witness for the amended C3: re-presenting source `W` (which has an
existing entity) with duplicate item identifiers fails with the duplicate
error. -/
theorem ingestSources_duplicate_error_existing_group_witness :
    matchingEntities cSourceDupW.identifier [cTaskW] ≠ [] ∧
    (∀ e ∈ matchingEntities cSourceDupW.identifier [cTaskW],
      truthyItemID e = true) ∧
    ¬ (cSourceDupW.items.map (·.identifier)).Nodup ∧
    (∃ d, (∃ it ∈ cSourceDupW.items, it.identifier = d) ∧
      ingestSources [cSourceDupW] [cTaskW] 3 =
        .error (.duplicateItemIdentifier d)) :=
  ⟨by decide, by decide, by decide,
    ingestSources_duplicate_error_existing_group cSourceDupW [cTaskW] 3
      (by decide) (by decide) (by decide)⟩

/-- C6 counterexample: entity `cTaskB2` lacks the item-identifier metadata
and its provenance matches incoming source `cSourceB2`, yet the call fails
with `DuplicateItemIdentifierError` (raised while processing the earlier
source `cSourceADup`), not with `MissingItemIdentifierError`. -/
theorem ingestSources_duplicate_preempts_missing :
    jget cTaskB2.metadata INGEST_ITEM_IDENTIFIER_KEY = none ∧
    provMatches cSourceB2.identifier cTaskB2 = true ∧
    cSourceB2 ∈ [cSourceADup, cSourceB2] ∧
    cTaskB2 ∈ [cTaskA2, cTaskB2] ∧
    ingestSources [cSourceADup, cSourceB2] [cTaskA2, cTaskB2] 0 =
      .error (.duplicateItemIdentifier "x") ∧
    ingestSources [cSourceADup, cSourceB2] [cTaskA2, cTaskB2] 0 ≠
      .error .missingItemIdentifier := by
  refine ⟨rfl, rfl, by decide, by decide, by decide, ?_⟩
  decide

/-- C6 (amended): if a stored entity's provenance identifier matches an
incoming source's identifier and the entity lacks a (truthy) ingestion
item identifier, the call fails with `MissingItemIdentifierError` —
provided no source in the call presents duplicate item identifiers (which
could otherwise preempt this error). -/
theorem ingestSources_missing_item_identifier_error
    (sources : List IngestibleSource) (entities : List Task) (t : Int)
    (s : IngestibleSource) (e : Task)
    (hs : s ∈ sources) (he : e ∈ entities)
    (hm : provMatches s.identifier e = true)
    (hf : truthyItemID e = false)
    (hnodup : ∀ s' ∈ sources, ((s'.items.map (·.identifier)).Nodup)) :
    ingestSources sources entities t = .error .missingItemIdentifier := by
  have h := processSources_missing entities t sources [] [] 0 s e hs he hm
    hf hnodup
  simp only [ingestSources, h]

/-- Witness for the amended C6. -/
theorem ingestSources_missing_item_identifier_error_witness :
    cSourceB2 ∈ [cSourceB2] ∧ cTaskB2 ∈ [cTaskB2] ∧
    provMatches cSourceB2.identifier cTaskB2 = true ∧
    truthyItemID cTaskB2 = false ∧
    (∀ s' ∈ [cSourceB2], ((s'.items.map (·.identifier)).Nodup)) ∧
    ingestSources [cSourceB2] [cTaskB2] 9 =
      .error .missingItemIdentifier :=
  ⟨by decide, by decide, rfl, rfl, by decide,
    ingestSources_missing_item_identifier_error [cSourceB2] [cTaskB2] 9
      cSourceB2 cTaskB2 (by decide) (by decide) rfl rfl (by decide)⟩

/-- C7 counterexample: a brand-new source presenting two items (sharing an
identifier) yields a single ingest event, not one event per item — the
earlier item's event is overwritten by the later one. -/
theorem ingestSources_new_source_duplicate_collapses :
    cSourceDupNew.items.length = 2 ∧
    matchingEntities cSourceDupNew.identifier [] = [] ∧
    ingestSources [cSourceDupNew] [] 5 =
      .ok [.taskIngest
        { id := generateUniqueID 2, spec := "spec-2"
          entityID := generateUniqueID 3, timestampMillis := 5
          metadata := [(INGEST_ITEM_IDENTIFIER_KEY, "x")]
          provenance := sourceProvenance cSourceDupNew }] := by
  refine ⟨rfl, rfl, ?_⟩
  decide

/-- C7 (amended): for a call consisting of a single source whose identifier
matches no existing entity and whose item identifiers are pairwise
distinct, every item yields exactly one `TaskIngestEvent`, in item order:
its timestamp is the ingest-date option, its entity id is freshly
generated (the `2i+1`-st generated id for the `i`-th item), its provenance
is the source's (with `url`/`colorPaletteName` present only when truthy on
the source), and its metadata maps the ingestion key to the item's
identifier. -/
theorem ingestSources_new_source_ingests_all_items
    (s : IngestibleSource) (entities : List Task) (t : Int)
    (hnew : matchingEntities s.identifier entities = [])
    (hnodup : (s.items.map (·.identifier)).Nodup) :
    ingestSources [s] entities t =
      .ok ((enumFrom 0 s.items).map (fun p => .taskIngest
        { id := generateUniqueID (2 * p.1)
          spec := p.2.spec
          entityID := generateUniqueID (2 * p.1 + 1)
          timestampMillis := t
          metadata := [(INGEST_ITEM_IDENTIFIER_KEY, p.2.identifier)]
          provenance := sourceProvenance s })) := by
  have hgrp := group_matching_empty hnew
  have hchar := ingestNewSource_char s t s.items [] 0 hnodup
    (by simp [jkeys])
  simp only [List.nil_append] at hchar
  have hkeys : (jkeys ((ingestNewSource s t s.items [] 0).1)).Nodup := by
    rw [hchar, newIngestEntries_keys]
    exact hnodup
  obtain ⟨hmp1, hmp2, hmp3⟩ := movePass_char
    ((ingestNewSource s t s.items [] 0).1)
    ((ingestNewSource s t s.items [] 0).1) []
    [] ((ingestNewSource s t s.items [] 0).2) hkeys
  rw [movePassHits_del_nil] at hmp1 hmp2
  rw [movePassUpdates_del_nil] at hmp3
  simp only [stripKeys, jkeys, List.map_nil, List.nil_append] at hmp1 hmp2 hmp3
  simp only [ingestSources, processSources, hgrp, hmp1, hmp2, hmp3]
  rw [hchar, newIngestEntries_enum]
  simp only [jvalues, List.map_map, List.map_nil, List.append_nil]
  apply congrArg
  apply List.map_congr_left
  intro p _
  simp [Function.comp, createIngestTaskForSource]

/-- Witness for the amended C7: source `S` reconciled against an empty
store ingests both of its items as explicitly-described events. -/
theorem ingestSources_new_source_ingests_all_items_witness :
    matchingEntities cSourceS.identifier [] = [] ∧
    (cSourceS.items.map (·.identifier)).Nodup ∧
    ingestSources [cSourceS] [] 42 =
      .ok ((enumFrom 0 cSourceS.items).map (fun p => .taskIngest
        { id := generateUniqueID (2 * p.1)
          spec := p.2.spec
          entityID := generateUniqueID (2 * p.1 + 1)
          timestampMillis := 42
          metadata := [(INGEST_ITEM_IDENTIFIER_KEY, p.2.identifier)]
          provenance := sourceProvenance cSourceS })) :=
  ⟨rfl, by decide,
    ingestSources_new_source_ingests_all_items cSourceS [] 42 rfl
      (by decide)⟩

theorem entries_key_inj {β : Type} {m : JMap β}
    (hnd : (jkeys m).Nodup) :
    ∀ p ∈ m, ∀ q ∈ m, p.1 = q.1 → p = q := by
  intro p hp q hq h
  obtain ⟨pk, pv⟩ := p
  obtain ⟨qk, qv⟩ := q
  simp only at h
  subst h
  have h1 := jget_of_mem_nodup hnd hp
  have h2 := jget_of_mem_nodup hnd hq
  rw [h1] at h2
  rw [(Option.some.injEq _ _).mp h2]

theorem nodup_entries {β : Type} {m : JMap β}
    (hnd : (jkeys m).Nodup) : m.Nodup :=
  List.Nodup.of_map _ hnd

theorem ingMapInv_nil (t : Int) : IngMapInv t [] := by
  constructor
  · simp [jkeys]
  · intro p hp
    simp at hp

theorem delMapInv_nil (entities : List Task)
    (S : List IngestibleSource) : DelMapInv entities S [] := by
  constructor
  · simp [jkeys]
  · intro p hp
    simp at hp

/-- C2: whenever, after the source loop, the same item-identifier key `k`
is present in both the computed ingest-event map and the computed
delete-event map, the returned event list contains exactly one
provenance-update event whose target is the to-be-deleted entity's id and
whose provenance and timestamp are the cancelled ingest event's, and zero
ingest events for `k` and zero delete events for that entity. -/
theorem ingestSources_move_detection
    (sources : List IngestibleSource) (entities : List Task) (t : Int)
    (ing : JMap TaskIngestEvent) (del : JMap TaskUpdateDeletedEvent)
    (c : Nat) (k : String) (ie : TaskIngestEvent)
    (de : TaskUpdateDeletedEvent)
    (hrun : processSources
      (groupEntitiesByProvenanceIdentifiers entities []) t sources [] [] 0 =
      .ok (ing, del, c))
    (hie : jget ing k = some ie) (hde : jget del k = some de)
    (hids : (entities.map (·.id)).Nodup) :
    ∃ evs, ingestSources sources entities t = .ok evs ∧
      evs.countP (isUpdateProvenanceEventFor de.entityID ie.provenance
        ie.timestampMillis) = 1 ∧
      evs.countP (isIngestEventFor k) = 0 ∧
      evs.countP (isDeleteEventFor de.entityID) = 0 := by
  obtain ⟨hii, hdi⟩ := processSources_inv entities t sources sources [] [] 0
    ing del c (fun s hs => hs) (ingMapInv_nil t)
    (delMapInv_nil entities sources) hrun
  obtain ⟨h1, h2, h3⟩ := movePass_char ing ing del [] c hii.1
  simp only [List.nil_append] at h3
  have hkK : k ∈ jkeys (movePassHits del ing) := by
    have hmem : (k, ie) ∈ movePassHits del ing :=
      (movePassHits_mem ing del (k, ie)).mpr
        ⟨jget_mem hie, by simp [hde]⟩
    exact List.mem_map_of_mem Prod.fst hmem
  simp only [ingestSources, hrun]
  refine ⟨_, rfl, ?_, ?_, ?_⟩
  · -- exactly one provenance-update event
    rw [h1, h2, h3]
    rw [List.countP_append, List.countP_append]
    have hz1 : ((jvalues (stripKeys ing (jkeys (movePassHits del
        ing)))).map Event.taskIngest).countP
        (isUpdateProvenanceEventFor de.entityID ie.provenance
          ie.timestampMillis) = 0 := by
      rw [List.countP_eq_zero]
      intro a ha
      obtain ⟨e', _, rfl⟩ := List.mem_map.mp ha
      simp [isUpdateProvenanceEventFor]
    have hz2 : ((jvalues (stripKeys del (jkeys (movePassHits del
        ing)))).map Event.taskUpdateDeleted).countP
        (isUpdateProvenanceEventFor de.entityID ie.provenance
          ie.timestampMillis) = 0 := by
      rw [List.countP_eq_zero]
      intro a ha
      obtain ⟨e', _, rfl⟩ := List.mem_map.mp ha
      simp [isUpdateProvenanceEventFor]
    rw [hz1, hz2]
    have hmap : ((movePassUpdates del c ing).map
        Event.taskUpdateProvenance).countP
        (isUpdateProvenanceEventFor de.entityID ie.provenance
          ie.timestampMillis) =
        (movePassUpdates del c ing).countP
        (fun u => u.entityID == de.entityID &&
          decide (u.provenance = ie.provenance) &&
          decide (u.timestampMillis = ie.timestampMillis)) := by
      rw [List.countP_map]
      rfl
    rw [hmap, movePassUpdates_countP de.entityID ie.provenance
      ie.timestampMillis ing del c]
    have hone : ing.countP (fun p =>
        match jget del p.1 with
        | some de' => de'.entityID == de.entityID &&
            decide (p.2.provenance = ie.provenance) &&
            decide (p.2.timestampMillis = ie.timestampMillis)
        | none => false) = 1 := by
      apply countP_eq_one_of_unique (nodup_entries hii.1) (jget_mem hie)
      · simp [hde]
      · intro b hb hq
        cases hjb : jget del b.1 with
        | none => rw [hjb] at hq; simp at hq
        | some de' =>
          rw [hjb] at hq
          simp only [Bool.and_eq_true, beq_iff_eq, decide_eq_true_eq]
            at hq
          have hbk : b.1 = k :=
            delMapInv_inj hdi hids (b.1, de') (jget_mem hjb) (k, de)
              (jget_mem hde) hq.1.1
          exact entries_key_inj hii.1 b hb (k, ie) (jget_mem hie) hbk
    rw [hone]
  · -- zero ingest events for k
    rw [h1, h2, h3]
    rw [List.countP_append, List.countP_append, List.countP_eq_zero.mpr,
      List.countP_eq_zero.mpr, List.countP_eq_zero.mpr]
    · intro a ha
      obtain ⟨u, _, rfl⟩ := List.mem_map.mp ha
      simp [isIngestEventFor]
    · intro a ha
      obtain ⟨d', _, rfl⟩ := List.mem_map.mp ha
      simp [isIngestEventFor]
    · intro a ha
      obtain ⟨e', he', rfl⟩ := List.mem_map.mp ha
      obtain ⟨p, hp, hpe⟩ := List.mem_map.mp he'
      obtain ⟨hpm, hpk⟩ := mem_stripKeys _ _ _ hp
      have hmeta := (hii.2 p hpm).1
      simp only [isIngestEventFor, ← hpe, hmeta]
      have hpk2 : p.1 ≠ k := fun he => hpk (he ▸ hkK)
      simp [jget, INGEST_ITEM_IDENTIFIER_KEY, hpk2]
  · -- zero delete events for the moved entity
    rw [h1, h2, h3]
    rw [List.countP_append, List.countP_append, List.countP_eq_zero.mpr,
      List.countP_eq_zero.mpr, List.countP_eq_zero.mpr]
    · intro a ha
      obtain ⟨u, _, rfl⟩ := List.mem_map.mp ha
      simp [isDeleteEventFor]
    · intro a ha
      obtain ⟨d', hd', rfl⟩ := List.mem_map.mp ha
      obtain ⟨p, hp, hpe⟩ := List.mem_map.mp hd'
      obtain ⟨hpm, hpk⟩ := mem_stripKeys _ _ _ hp
      simp only [isDeleteEventFor, ← hpe, beq_iff_eq]
      intro heq
      have hbk : p.1 = k :=
        delMapInv_inj hdi hids (p.1, p.2) (by simpa using hpm) (k, de)
          (jget_mem hde) heq
      exact (hpk (hbk ▸ hkK)).elim
    · intro a ha
      obtain ⟨e', _, rfl⟩ := List.mem_map.mp ha
      simp [isDeleteEventFor]

/-- Witness for C2: moving item `x` from source `A` to source `B` in one
call yields exactly one provenance-update event targeting `x`'s original
entity, and no ingest or delete events for it. -/
theorem ingestSources_move_detection_witness :
    ∃ evs, ingestSources [cSourceA, cSourceB] [cTaskX] 99 = .ok evs ∧
      evs.countP (isUpdateProvenanceEventFor "tx"
        (sourceProvenance cSourceB) 99) = 1 ∧
      evs.countP (isIngestEventFor "x") = 0 ∧
      evs.countP (isDeleteEventFor "tx") = 0 :=
  ingestSources_move_detection [cSourceA, cSourceB] [cTaskX] 99
    [("x", { id := generateUniqueID 1, spec := "spec-x"
             entityID := generateUniqueID 2, timestampMillis := 99
             metadata := [(INGEST_ITEM_IDENTIFIER_KEY, "x")]
             provenance := sourceProvenance cSourceB })]
    [("x", { id := generateUniqueID 0, entityID := "tx"
             timestampMillis := 99, isDeleted := true })]
    3 "x"
    { id := generateUniqueID 1, spec := "spec-x"
      entityID := generateUniqueID 2, timestampMillis := 99
      metadata := [(INGEST_ITEM_IDENTIFIER_KEY, "x")]
      provenance := sourceProvenance cSourceB }
    { id := generateUniqueID 0, entityID := "tx"
      timestampMillis := 99, isDeleted := true }
    (by decide) (by decide) (by decide) (by decide)

/-- C10: every deletion and provenance-update event returned by
`ingestSources` targets a stored entity whose provenance identifier equals
the identifier of one of the sources passed in the call — entities
belonging to sources absent from the argument list contribute no
events. -/
theorem ingestSources_targets_only_matched_sources
    (sources : List IngestibleSource) (entities : List Task) (t : Int)
    (evs : List Event) (ev : Event)
    (hrun : ingestSources sources entities t = .ok evs)
    (hev : ev ∈ evs) :
    refsMatchedEntity sources entities ev := by
  cases hps : processSources
      (groupEntitiesByProvenanceIdentifiers entities []) t sources [] [] 0
    with
  | error err => simp [ingestSources, hps] at hrun
  | ok r =>
    obtain ⟨ing, del, c⟩ := r
    obtain ⟨hii, hdi⟩ := processSources_inv entities t sources sources []
      [] 0 ing del c (fun s hs => hs) (ingMapInv_nil t)
      (delMapInv_nil entities sources) hps
    obtain ⟨h1, h2, h3⟩ := movePass_char ing ing del [] c hii.1
    simp only [List.nil_append] at h3
    simp only [ingestSources, hps, h1, h2, h3, Except.ok.injEq] at hrun
    subst hrun
    rcases List.mem_append.mp hev with hev1 | hev2
    · rcases List.mem_append.mp hev1 with hseg | hseg
      · obtain ⟨e', _, rfl⟩ := List.mem_map.mp hseg
        trivial
      · obtain ⟨d', hd', rfl⟩ := List.mem_map.mp hseg
        obtain ⟨p, hp, hpe⟩ := List.mem_map.mp hd'
        obtain ⟨hpm, _⟩ := mem_stripKeys _ _ _ hp
        obtain ⟨e, he, hid, _, _, s, hs, hpm2⟩ := hdi.2 p hpm
        exact ⟨e, he, by rw [← hpe]; exact hid, s, hs, hpm2⟩
    · obtain ⟨u, hu, rfl⟩ := List.mem_map.mp hev2
      obtain ⟨p, _, de', hjget, hent, _, _⟩ :=
        movePassUpdates_mem ing del c u hu
      obtain ⟨e, he, hid, _, _, s, hs, hpm2⟩ := hdi.2 (p.1, de')
        (jget_mem hjget)
      exact ⟨e, he, by rw [hent]; exact hid, s, hs, hpm2⟩

/-- Witness for C10: in the round-trip run, the deletion event emitted for
item `a` targets entity `ta`, which belongs to the matched source `S`. -/
theorem ingestSources_targets_only_matched_sources_witness :
    ingestSources [cSourceS] [cTaskA, cTaskB] 77 =
      .ok [.taskIngest
        { id := generateUniqueID 0, spec := "spec-c"
          entityID := generateUniqueID 1, timestampMillis := 77
          metadata := [(INGEST_ITEM_IDENTIFIER_KEY, "c")]
          provenance := sourceProvenance cSourceS },
        .taskUpdateDeleted
          { id := generateUniqueID 2, entityID := "ta"
            timestampMillis := 77, isDeleted := true }] ∧
    refsMatchedEntity [cSourceS] [cTaskA, cTaskB]
      (.taskUpdateDeleted
        { id := generateUniqueID 2, entityID := "ta"
          timestampMillis := 77, isDeleted := true }) :=
  ⟨by decide,
    ingestSources_targets_only_matched_sources [cSourceS]
      [cTaskA, cTaskB] 77
      [.taskIngest
        { id := generateUniqueID 0, spec := "spec-c"
          entityID := generateUniqueID 1, timestampMillis := 77
          metadata := [(INGEST_ITEM_IDENTIFIER_KEY, "c")]
          provenance := sourceProvenance cSourceS },
        .taskUpdateDeleted
          { id := generateUniqueID 2, entityID := "ta"
            timestampMillis := 77, isDeleted := true }]
      (.taskUpdateDeleted
        { id := generateUniqueID 2, entityID := "ta"
          timestampMillis := 77, isDeleted := true })
      (by decide) (by decide)⟩

theorem movePassHits_no_hits (l : List (String × TaskIngestEvent))
    (del : JMap TaskUpdateDeletedEvent)
    (h : ∀ p ∈ l, jget del p.1 = none) : movePassHits del l = [] := by
  rw [List.eq_nil_iff_forall_not_mem]
  intro q hq
  obtain ⟨hql, hqs⟩ := (movePassHits_mem l del q).mp hq
  rw [h q hql] at hqs
  simp at hqs

theorem movePassUpdates_no_hits :
    ∀ (l : List (String × TaskIngestEvent))
      (del : JMap TaskUpdateDeletedEvent) (c : Nat),
    (∀ p ∈ l, jget del p.1 = none) → movePassUpdates del c l = [] := by
  intro l
  induction l with
  | nil => intro del c _; rfl
  | cons p rest ih =>
    intro del c h
    obtain ⟨k, ie⟩ := p
    have hk := h (k, ie) (List.mem_cons_self _ _)
    simp only [movePassUpdates, hk]
    exact ih del c (fun q hq => h q (List.mem_cons_of_mem _ hq))

theorem jget_singleton_key (x : String) :
    jget [(INGEST_ITEM_IDENTIFIER_KEY, x)] INGEST_ITEM_IDENTIFIER_KEY =
      some x := by
  simp [jget]

theorem countP_ingest_values_key (k : String) (t : Int)
    (m : JMap TaskIngestEvent) (hinv : IngMapInv t m) :
    ((jvalues m).map Event.taskIngest).countP (isIngestEventFor k) =
      if k ∈ jkeys m then 1 else 0 := by
  have hstep : ((jvalues m).map Event.taskIngest).countP
      (isIngestEventFor k) = m.countP (fun p => p.1 == k) := by
    simp only [jvalues, List.countP_map]
    apply List.countP_congr
    intro p hp
    have hmeta := (hinv.2 p hp).1
    simp only [Function.comp, isIngestEventFor, hmeta, jget_singleton_key]
    by_cases h : p.1 = k <;> simp [h]
  rw [hstep]
  by_cases hk : k ∈ jkeys m
  · rw [if_pos hk]
    obtain ⟨v, hv⟩ := (mem_jkeys_iff m k).mp hk
    apply countP_eq_one_of_unique (nodup_entries hinv.1) hv
    · simp
    · intro b hb hq
      exact entries_key_inj hinv.1 b hb (k, v) hv
        (by simpa [beq_iff_eq] using hq)
  · rw [if_neg hk]
    rw [List.countP_eq_zero]
    intro p hp
    simp only [beq_iff_eq]
    intro he
    exact hk (he ▸ List.mem_map_of_mem Prod.fst hp)

theorem countP_delete_values_entity (eid : String)
    (m : JMap TaskUpdateDeletedEvent) :
    ((jvalues m).map Event.taskUpdateDeleted).countP
      (isDeleteEventFor eid) =
      m.countP (fun p => p.2.entityID == eid) := by
  simp only [jvalues, List.countP_map]
  apply List.countP_congr
  intro p _
  rfl

/-- C1 counterexample: in a multi-source call, a key that is new for a
source whose identifier matches an existing group need not yield an
ingest event: here item `x` is new for source `B` (whose group holds only
`y`) but simultaneously disappears from source `A`, so the move pass
cancels the ingest event and the call yields zero ingest events for `x`.
The set-difference classification therefore holds only per call with a
single source. -/
theorem ingestSources_cross_source_move_cancels_ingest :
    matchingEntities cSourceBGroup.identifier [cTaskX, cTaskY] =
      [cTaskY] ∧
    "x" ∈ cSourceBGroup.items.map (·.identifier) ∧
    entityItemID cTaskY = "y" ∧
    (ingestSources [cSourceA, cSourceBGroup] [cTaskX, cTaskY] 7).map
      (fun evs => evs.countP (isIngestEventFor "x")) = .ok 0 := by
  refine ⟨rfl, by decide, rfl, ?_⟩
  decide

/-- C1: for a call presenting one source whose identifier matches a group
of existing entities, item-identifier keys are classified by set
difference: a key among the incoming items but not among the existing
entities yields exactly one ingest event; a key among the existing
entities but not among the incoming items yields exactly one deletion
event for that entity; a key present on both sides yields no event at all
(in particular no update of existing content), and no provenance-update
events are emitted. -/
theorem ingestSources_diff_by_item_identifier
    (s : IngestibleSource) (entities : List Task) (t : Int)
    (hg : matchingEntities s.identifier entities ≠ [])
    (hwf : ∀ e ∈ matchingEntities s.identifier entities,
      truthyItemID e = true)
    (hkeys : ((matchingEntities s.identifier entities).map
      entityItemID).Nodup)
    (hids : (entities.map (·.id)).Nodup)
    (hitems : (s.items.map (·.identifier)).Nodup) :
    ∃ evs, ingestSources [s] entities t = .ok evs ∧
      (∀ k ∈ s.items.map (·.identifier),
        k ∉ (matchingEntities s.identifier entities).map entityItemID →
        evs.countP (isIngestEventFor k) = 1) ∧
      (∀ k, (k ∈ (matchingEntities s.identifier entities).map entityItemID
          ∨ k ∉ s.items.map (·.identifier)) →
        evs.countP (isIngestEventFor k) = 0) ∧
      (∀ e ∈ matchingEntities s.identifier entities,
        entityItemID e ∉ s.items.map (·.identifier) →
        evs.countP (isDeleteEventFor e.id) = 1) ∧
      (∀ e ∈ matchingEntities s.identifier entities,
        entityItemID e ∈ s.items.map (·.identifier) →
        evs.countP (isDeleteEventFor e.id) = 0) ∧
      evs.countP isUpdateProvenanceEvent = 0 := by
  have hgrp := group_matching_nonempty hg
  have hme := mapEntities_ok_char (matchingEntities s.identifier entities)
    [] hwf hkeys (by simp [jkeys])
  have hmi := mapIngestible_ok_char s.items [] hitems (by simp [jkeys])
  simp only [List.nil_append] at hme hmi
  set M := matchingEntities s.identifier entities with hM
  set eMap : JMap Task := M.map (fun e => (entityItemID e, e)) with heMap
  set iMap : JMap IngestibleItem :=
    s.items.map (fun it => (it.identifier, it)) with hiMap
  have hekeys : jkeys eMap = M.map entityItemID := by
    simp [jkeys, heMap, List.map_map, Function.comp]
  have hikeys : jkeys iMap = s.items.map (·.identifier) := by
    simp [jkeys, hiMap, List.map_map, Function.comp]
  have hrun : processSources
      (groupEntitiesByProvenanceIdentifiers entities []) t [s] [] [] 0 =
      .ok ((addIngestEvents s t iMap eMap [] 0).1,
        (addDeleteEvents t eMap iMap []
          (addIngestEvents s t iMap eMap [] 0).2).1,
        (addDeleteEvents t eMap iMap []
          (addIngestEvents s t iMap eMap [] 0).2).2) := by
    simp only [processSources, hgrp, hme, hmi]
  set ing1 := (addIngestEvents s t iMap eMap [] 0).1 with hing1
  set del1 := (addDeleteEvents t eMap iMap []
    (addIngestEvents s t iMap eMap [] 0).2).1 with hdel1
  set c2 := (addDeleteEvents t eMap iMap []
    (addIngestEvents s t iMap eMap [] 0).2).2 with hc2
  obtain ⟨hii, hdi⟩ := processSources_inv entities t [s] [s] [] [] 0
    ing1 del1 c2 (fun s' hs' => hs') (ingMapInv_nil t)
    (delMapInv_nil entities [s]) hrun
  have hingGetHit : ∀ k ∈ s.items.map (·.identifier),
      k ∉ M.map entityItemID → ∃ ev, jget ing1 k = some ev := by
    intro k hki hke
    obtain ⟨it, hit, hid⟩ := List.mem_map.mp hki
    have hmem : (k, it) ∈ iMap := by
      rw [hiMap]
      exact hid ▸ List.mem_map_of_mem _ hit
    have hnone : jget eMap k = none := by
      rw [jget_eq_none_iff, hekeys]
      exact hke
    rw [hing1]
    exact addIngest_get_hit s t iMap eMap [] 0 k it
      (by rw [hikeys]; exact hitems) hmem hnone
  have hingGetNone : ∀ k,
      (k ∈ M.map entityItemID ∨ k ∉ s.items.map (·.identifier)) →
      jget ing1 k = none := by
    intro k hk
    have hskip : k ∉ jkeys iMap ∨ ¬ jget eMap k = none := by
      rcases hk with hk | hk
      · right
        intro hn
        rw [jget_eq_none_iff, hekeys] at hn
        exact hn hk
      · left
        rw [hikeys]
        exact hk
    rw [hing1, addIngest_get_skip s t iMap eMap [] 0 k hskip]
    rfl
  have hdelGetHit : ∀ e ∈ M, entityItemID e ∉ s.items.map (·.identifier) →
      ∃ dev, jget del1 (entityItemID e) = some dev ∧
        dev.entityID = e.id ∧ dev.isDeleted = true ∧
        dev.timestampMillis = t := by
    intro e he hni
    have hmem : (entityItemID e, e) ∈ eMap := by
      rw [heMap]
      exact List.mem_map_of_mem _ he
    have hnone : jget iMap (entityItemID e) = none := by
      rw [jget_eq_none_iff, hikeys]
      exact hni
    rw [hdel1]
    exact addDelete_get_hit t eMap iMap _ _ (entityItemID e) e
      (by rw [hekeys]; exact hkeys) hmem hnone
  have hdelGetNone : ∀ k, ¬ jget iMap k = none → jget del1 k = none := by
    intro k hk
    rw [hdel1, addDelete_get_skip t eMap iMap _ _ k (Or.inr hk)]
    rfl
  have hdisj : ∀ p ∈ ing1, jget del1 p.1 = none := by
    intro p hp
    have hkp : ¬ jget ing1 p.1 = none := by
      intro hn
      rw [jget_eq_none_iff] at hn
      exact hn (List.mem_map_of_mem Prod.fst hp)
    by_cases hik : p.1 ∈ jkeys iMap
    · by_cases hen : jget eMap p.1 = none
      · have hnk : p.1 ∉ jkeys eMap := (jget_eq_none_iff _ _).mp hen
        rw [hdel1, addDelete_get_skip t eMap iMap _ _ p.1 (Or.inl hnk)]
        rfl
      · exfalso
        apply hkp
        rw [hing1, addIngest_get_skip s t iMap eMap [] 0 p.1 (Or.inr hen)]
        rfl
    · exfalso
      apply hkp
      rw [hing1, addIngest_get_skip s t iMap eMap [] 0 p.1 (Or.inl hik)]
      rfl
  obtain ⟨hmp1, hmp2, hmp3⟩ := movePass_char ing1 ing1 del1 [] c2 hii.1
  rw [movePassHits_no_hits ing1 del1 hdisj] at hmp1 hmp2
  simp only [jkeys, List.map_nil, stripKeys] at hmp1 hmp2
  rw [movePassUpdates_no_hits ing1 del1 c2 hdisj] at hmp3
  simp only [List.append_nil] at hmp3
  simp only [ingestSources, hrun]
  refine ⟨_, rfl, ?_, ?_, ?_, ?_, ?_⟩
  · -- new keys: exactly one ingest event
    intro k hki hke
    rw [hmp1, hmp2, hmp3]
    rw [List.countP_append, List.countP_append,
      countP_ingest_values_key k t ing1 hii]
    obtain ⟨ev, hev⟩ := hingGetHit k hki hke
    rw [if_pos (jget_mem_keys hev)]
    rw [List.countP_eq_zero.mpr, List.countP_eq_zero.mpr]
    · intro a ha
      simp at ha
    · intro a ha
      obtain ⟨d', _, rfl⟩ := List.mem_map.mp ha
      simp [isIngestEventFor]
  · -- existing or absent keys: zero ingest events
    intro k hk
    rw [hmp1, hmp2, hmp3]
    rw [List.countP_append, List.countP_append,
      countP_ingest_values_key k t ing1 hii]
    rw [if_neg (fun hmem => by
      have hn := hingGetNone k hk
      rw [jget_eq_none_iff] at hn
      exact hn hmem)]
    rw [List.countP_eq_zero.mpr, List.countP_eq_zero.mpr]
    · intro a ha
      simp at ha
    · intro a ha
      obtain ⟨d', _, rfl⟩ := List.mem_map.mp ha
      simp [isIngestEventFor]
  · -- removed entities: exactly one delete event
    intro e he hni
    rw [hmp1, hmp2, hmp3]
    rw [List.countP_append, List.countP_append,
      countP_delete_values_entity e.id del1]
    obtain ⟨dev, hdev, hdevid, _, _⟩ := hdelGetHit e he hni
    have hone : del1.countP (fun p => p.2.entityID == e.id) = 1 := by
      apply countP_eq_one_of_unique (nodup_entries hdi.1)
        (jget_mem hdev)
      · simp [hdevid]
      · intro b hb hq
        simp only [beq_iff_eq] at hq
        have hbk : b.1 = entityItemID e :=
          delMapInv_inj hdi hids b hb (entityItemID e, dev)
            (jget_mem hdev) (by rw [hq, hdevid])
        exact entries_key_inj hdi.1 b hb (entityItemID e, dev)
          (jget_mem hdev) hbk
    rw [hone]
    rw [List.countP_eq_zero.mpr, List.countP_eq_zero.mpr]
    · intro a ha
      simp at ha
    · intro a ha
      obtain ⟨e', _, rfl⟩ := List.mem_map.mp ha
      simp [isDeleteEventFor]
  · -- keys on both sides: zero delete events for that entity
    intro e he hin
    rw [hmp1, hmp2, hmp3]
    rw [List.countP_append, List.countP_append,
      countP_delete_values_entity e.id del1]
    have hz : del1.countP (fun p => p.2.entityID == e.id) = 0 := by
      rw [List.countP_eq_zero]
      intro p hp
      simp only [beq_iff_eq]
      intro heq
      obtain ⟨f, hf, hfe, hfjg, _, _⟩ := hdi.2 p hp
      have hfeq : f = e := by
        apply List.inj_on_of_nodup_map hids hf
        · rw [hM] at he
          exact (List.mem_filter.mp he).1
        · rw [← hfe, heq]
      subst hfeq
      have hpk : entityItemID f = p.1 := by
        simp [entityItemID, hfjg]
      have hiSome : ¬ jget iMap p.1 = none := by
        rw [jget_eq_none_iff, hikeys]
        intro hcon
        rw [← hpk] at hcon
        exact hcon hin
      have hnone := hdelGetNone p.1 hiSome
      rw [jget_eq_none_iff] at hnone
      exact hnone (List.mem_map_of_mem Prod.fst hp)
    rw [hz]
    rw [List.countP_eq_zero.mpr, List.countP_eq_zero.mpr]
    · intro a ha
      simp at ha
    · intro a ha
      obtain ⟨e', _, rfl⟩ := List.mem_map.mp ha
      simp [isDeleteEventFor]
  · -- no provenance-update events at all
    rw [hmp1, hmp2, hmp3]
    rw [List.countP_append, List.countP_append]
    rw [List.countP_eq_zero.mpr, List.countP_eq_zero.mpr,
      List.countP_eq_zero.mpr]
    · intro a ha
      simp at ha
    · intro a ha
      obtain ⟨d', _, rfl⟩ := List.mem_map.mp ha
      simp [isUpdateProvenanceEvent]
    · intro a ha
      obtain ⟨e', _, rfl⟩ := List.mem_map.mp ha
      simp [isUpdateProvenanceEvent]

/-- Witness for C1: source `S` previously ingested with items `{a, b}`,
re-ingested with items `{b, c}`. -/
theorem ingestSources_diff_by_item_identifier_witness :
    matchingEntities cSourceS.identifier [cTaskA, cTaskB] ≠ [] ∧
    (∀ e ∈ matchingEntities cSourceS.identifier [cTaskA, cTaskB],
      truthyItemID e = true) ∧
    ((matchingEntities cSourceS.identifier [cTaskA, cTaskB]).map
      entityItemID).Nodup ∧
    (([cTaskA, cTaskB].map (·.id)).Nodup) ∧
    ((cSourceS.items.map (·.identifier)).Nodup) ∧
    (∃ evs, ingestSources [cSourceS] [cTaskA, cTaskB] 77 = .ok evs ∧
      (∀ k ∈ cSourceS.items.map (·.identifier),
        k ∉ (matchingEntities cSourceS.identifier
          [cTaskA, cTaskB]).map entityItemID →
        evs.countP (isIngestEventFor k) = 1) ∧
      (∀ k, (k ∈ (matchingEntities cSourceS.identifier
          [cTaskA, cTaskB]).map entityItemID
          ∨ k ∉ cSourceS.items.map (·.identifier)) →
        evs.countP (isIngestEventFor k) = 0) ∧
      (∀ e ∈ matchingEntities cSourceS.identifier [cTaskA, cTaskB],
        entityItemID e ∉ cSourceS.items.map (·.identifier) →
        evs.countP (isDeleteEventFor e.id) = 1) ∧
      (∀ e ∈ matchingEntities cSourceS.identifier [cTaskA, cTaskB],
        entityItemID e ∈ cSourceS.items.map (·.identifier) →
        evs.countP (isDeleteEventFor e.id) = 0) ∧
      evs.countP isUpdateProvenanceEvent = 0) :=
  ⟨by decide, by decide, by decide, by decide, by decide,
    ingestSources_diff_by_item_identifier cSourceS [cTaskA, cTaskB] 77
      (by decide) (by decide) (by decide) (by decide) (by decide)⟩

/-! ## Derived-row lemmas -/

theorem filter_filter_of_imp {α : Type} {p q : α → Bool} :
    ∀ (l : List α), (∀ r ∈ l, q r = true → p r = true) →
    (l.filter p).filter q = l.filter q := by
  intro l
  induction l with
  | nil => intro _; rfl
  | cons a rest ih =>
    intro h
    have hrest := ih (fun r hr => h r (List.mem_cons_of_mem _ hr))
    by_cases hq : q a = true
    · have hp := h a (List.mem_cons_self _ _) hq
      rw [List.filter_cons, if_pos hp, List.filter_cons, if_pos hq,
        List.filter_cons, if_pos hq, hrest]
    · by_cases hp : p a = true
      · rw [List.filter_cons, if_pos hp, List.filter_cons, if_neg hq,
          List.filter_cons, if_neg hq, hrest]
      · rw [List.filter_cons, if_neg hp, List.filter_cons, if_neg hq,
          hrest]

theorem filter_filter_of_excl {α : Type} {p q : α → Bool} :
    ∀ (l : List α), (∀ r ∈ l, q r = true → p r = false) →
    (l.filter p).filter q = [] := by
  intro l
  induction l with
  | nil => intro _; rfl
  | cons a rest ih =>
    intro h
    have hrest := ih (fun r hr => h r (List.mem_cons_of_mem _ hr))
    by_cases hp : p a = true
    · have hq : ¬ q a = true := by
        intro hqa
        rw [h a (List.mem_cons_self _ _) hqa] at hp
        exact Bool.false_ne_true hp
      rw [List.filter_cons, if_pos hp, List.filter_cons, if_neg hq, hrest]
    · rw [List.filter_cons, if_neg hp, hrest]

theorem filter_eq_nil_of_false {α : Type} {p : α → Bool} {l : List α}
    (h : ∀ r ∈ l, p r = false) : l.filter p = [] := by
  induction l with
  | nil => rfl
  | cons a rest ih =>
    rw [List.filter_cons, h a (List.mem_cons_self _ _)]
    simp only [Bool.false_eq_true, if_neg, Bool.not_eq_true]
    exact ih (fun r hr => h r (List.mem_cons_of_mem _ hr))

theorem taskComponentRows_taskID {task : CoreTask} {r : DerivedRow}
    (h : r ∈ taskComponentRows task) : r.taskID = task.id := by
  unfold taskComponentRows at h
  by_cases hd : task.isDeleted
  · simp [hd] at h
  · simp only [hd, Bool.false_eq_true, if_neg, Bool.not_eq_true] at h
    obtain ⟨p, _, rfl⟩ := List.mem_map.mp h
    rfl

theorem comp_rows_filter_none :
    ∀ (comps : List (String × TaskComponentState)) (tid cid : String),
    cid ∉ comps.map (·.1) →
    (comps.map (fun p =>
      DerivedRow.mk tid p.1 p.2.dueTimestampMillis)).filter
      (fun r => r.taskID == tid && r.componentID == cid) = [] := by
  intro comps tid cid hn
  apply filter_eq_nil_of_false
  intro r hr
  obtain ⟨p, hp, rfl⟩ := List.mem_map.mp hr
  have hne : p.1 ≠ cid := by
    intro he
    exact hn (he ▸ List.mem_map_of_mem (·.1) hp)
  simp [hne]

theorem comp_rows_filter :
    ∀ (comps : List (String × TaskComponentState)) (tid cid : String),
    (comps.map (·.1)).Nodup →
    (comps.map (fun p =>
      DerivedRow.mk tid p.1 p.2.dueTimestampMillis)).filter
      (fun r => r.taskID == tid && r.componentID == cid) =
    ((jget comps cid).map (fun st =>
      DerivedRow.mk tid cid st.dueTimestampMillis)).toList := by
  intro comps
  induction comps with
  | nil => intro _ _ _; rfl
  | cons p rest ih =>
    intro tid cid hnd
    obtain ⟨cid', st⟩ := p
    simp only [List.map_cons, List.nodup_cons] at hnd
    by_cases hc : cid' = cid
    · subst hc
      simp only [List.map_cons, List.filter_cons, beq_self_eq_true,
        Bool.and_self, if_pos, jget]
      rw [comp_rows_filter_none rest tid cid' hnd.1]
      simp [jget]
    · simp only [List.map_cons, List.filter_cons]
      have hcb : ((DerivedRow.mk tid cid' st.dueTimestampMillis).taskID
          == tid &&
          (DerivedRow.mk tid cid' st.dueTimestampMillis).componentID
          == cid) = false := by
        simp [hc]
      rw [hcb]
      simp only [Bool.false_eq_true, if_neg, Bool.not_eq_true, jget,
        beq_iff_eq, if_neg hc]
      exact ih tid cid hnd.2

theorem liveRowFor_congr {b1 b2 : Backend} {tid : String}
    (h : jget b1.entities tid = jget b2.entities tid) (cid : String) :
    liveRowFor b1 tid cid = liveRowFor b2 tid cid := by
  unfold liveRowFor
  rw [h]

theorem liveRowFor_jset_self (ents : JMap EntityRecord)
    (rows : List DerivedRow) (rec : EntityRecord) (cid : String) :
    liveRowFor { entities := jset ents rec.entity.id rec
                 derivedRows := rows } rec.entity.id cid =
      if rec.entity.isDeleted then none
      else (jget rec.entity.componentStates cid).map
        (fun st => DerivedRow.mk rec.entity.id cid
          st.dueTimestampMillis) := by
  simp only [liveRowFor, jget_jset_self]

theorem applyDelta_project_other (rows : List DerivedRow)
    (next : CoreTask) (prevOpt : Option CoreTask) (tid cid : String)
    (hne : tid ≠ next.id)
    (hprev : ∀ p, prevOpt = some p → p.id = next.id) :
    (applyDelta rows (project prevOpt next).1
      (project prevOpt next).2).filter
      (fun r => r.taskID == tid && r.componentID == cid) =
    rows.filter (fun r => r.taskID == tid && r.componentID == cid) := by
  simp only [project, applyDelta]
  rw [List.filter_append]
  have hups : (taskComponentRows next).filter
      (fun r => r.taskID == tid && r.componentID == cid) = [] := by
    apply filter_eq_nil_of_false
    intro r hr
    have hid := taskComponentRows_taskID hr
    simp [hid, Ne.symm hne]
  rw [hups, List.append_nil]
  apply filter_filter_of_imp
  intro r hr hkey
  simp only [Bool.and_eq_true, beq_iff_eq] at hkey
  simp only [Bool.and_eq_true, Bool.not_eq_true', List.any_eq_false]
  constructor
  · intro d hd
    obtain ⟨r0, hr0, rfl⟩ := List.mem_map.mp hd
    have hr0m := List.mem_of_mem_filter hr0
    cases hp : prevOpt with
    | none =>
      rw [hp] at hr0m
      simp at hr0m
    | some p =>
      rw [hp] at hr0m
      have hr0id : r0.taskID = p.id := taskComponentRows_taskID hr0m
      simp [hr0id, hprev p hp, hkey.1, Ne.symm hne]
  · intro u hu
    have huid := taskComponentRows_taskID hu
    simp [huid, hkey.1, Ne.symm hne]

theorem applyDelta_project_self (rows : List DerivedRow)
    (next : CoreTask) (prevOpt : Option CoreTask) (cid : String)
    (hcomp : (next.componentStates.map (·.1)).Nodup)
    (hprev : ∀ p, prevOpt = some p → p.id = next.id)
    (hrows : rows.filter
      (fun r => r.taskID == next.id && r.componentID == cid) =
      (match prevOpt with
        | none => none
        | some p =>
          if p.isDeleted then none
          else (jget p.componentStates cid).map
            (fun (st : TaskComponentState) => DerivedRow.mk next.id cid
              st.dueTimestampMillis)).toList) :
    (applyDelta rows (project prevOpt next).1
      (project prevOpt next).2).filter
      (fun r => r.taskID == next.id && r.componentID == cid) =
    (if next.isDeleted then none
      else (jget next.componentStates cid).map
        (fun (st : TaskComponentState) => DerivedRow.mk next.id cid
          st.dueTimestampMillis)).toList := by
  simp only [project, applyDelta]
  rw [List.filter_append]
  refine Eq.trans (congrArg
    (· ++ (taskComponentRows next).filter
      (fun r => r.taskID == next.id && r.componentID == cid))
    (show _ = ([] : List DerivedRow) from ?_)) ?_
  · -- every old row for this key is removed by the delta
    apply filter_filter_of_excl
    intro r hr hkey
    simp only [Bool.and_eq_true, beq_iff_eq] at hkey
    have hmemf : r ∈ rows.filter
        (fun r => r.taskID == next.id && r.componentID == cid) :=
      List.mem_filter.mpr ⟨hr, by simp [hkey.1, hkey.2]⟩
    rw [hrows] at hmemf
    cases hp : prevOpt with
    | none =>
      rw [hp] at hmemf
      simp at hmemf
    | some p =>
      rw [hp] at hmemf
      have hmemf2 : r ∈ (if p.isDeleted then none
          else (jget p.componentStates cid).map
            (fun (st : TaskComponentState) => DerivedRow.mk next.id cid
              st.dueTimestampMillis)).toList := hmemf
      by_cases hpdel : p.isDeleted
      · rw [if_pos hpdel] at hmemf2
        simp at hmemf2
      · rw [if_neg hpdel] at hmemf2
        cases hst : jget p.componentStates cid with
        | none =>
          rw [hst] at hmemf2
          simp at hmemf2
        | some st =>
          rw [hst] at hmemf2
          simp only [Option.map_some', Option.toList_some,
            List.mem_singleton] at hmemf2
          subst hmemf2
          simp only [Bool.and_eq_false_iff, Bool.not_eq_false']
          by_cases hlive : ¬ next.isDeleted = true ∧
              (jget next.componentStates cid).isSome
          · right
            rw [List.any_eq_true]
            obtain ⟨st2, hst2⟩ := Option.isSome_iff_exists.mp hlive.2
            refine ⟨DerivedRow.mk next.id cid st2.dueTimestampMillis,
              ?_, ?_⟩
            · unfold taskComponentRows
              rw [if_neg hlive.1]
              exact List.mem_map_of_mem _ (jget_mem hst2)
            · simp
          · left
            rw [List.any_eq_true]
            refine ⟨(p.id, cid), ?_, ?_⟩
            · apply List.mem_map_of_mem (fun (r : DerivedRow) =>
                (r.taskID, r.componentID))
                (a := DerivedRow.mk p.id cid st.dueTimestampMillis)
              rw [List.mem_filter]
              refine ⟨?_, ?_⟩
              · show DerivedRow.mk p.id cid st.dueTimestampMillis ∈
                  taskComponentRows p
                unfold taskComponentRows
                rw [if_neg hpdel]
                exact List.mem_map_of_mem _ (jget_mem hst)
              · rw [Bool.not_eq_true', List.any_eq_false]
                intro n hn
                unfold taskComponentRows at hn
                by_cases hrdel : next.isDeleted
                · rw [if_pos hrdel] at hn
                  simp at hn
                · rw [if_neg hrdel] at hn
                  obtain ⟨q, hq, rfl⟩ := List.mem_map.mp hn
                  simp only [beq_iff_eq]
                  intro hqc
                  apply hlive
                  refine ⟨hrdel, ?_⟩
                  rw [Option.isSome_iff_exists]
                  obtain ⟨v, hv⟩ := (mem_jkeys_iff _ _).mp
                    (List.mem_map_of_mem Prod.fst hq)
                  refine ⟨v, ?_⟩
                  rw [← hqc]
                  exact jget_of_mem_nodup hcomp hv
            · simp [hprev p hp]
  · -- the upserts are exactly the current live rows
    simp only [List.nil_append]
    by_cases hrdel : next.isDeleted
    · rw [if_pos hrdel]
      unfold taskComponentRows
      rw [if_pos hrdel]
      rfl
    · rw [if_neg hrdel]
      unfold taskComponentRows
      rw [if_neg hrdel]
      exact comp_rows_filter next.componentStates next.id cid hcomp

theorem writeRecord_wf (b0 b : Backend) (rec : EntityRecord)
    (hagree : jget b0.entities rec.entity.id =
      jget b.entities rec.entity.id)
    (hwf : backendWF b)
    (hcomp : (jkeys rec.entity.componentStates).Nodup) :
    backendWF (writeRecord b0 b rec) ∧
    ∀ tid, tid ≠ rec.entity.id →
      jget (writeRecord b0 b rec).entities tid = jget b.entities tid := by
  have hprev : ∀ p, (jget b.entities rec.entity.id).map (·.entity) =
      some p → p.id = rec.entity.id := by
    intro p hp
    obtain ⟨prevRec, hjp, hpe⟩ := Option.map_eq_some'.mp hp
    rw [← hpe]
    exact hwf.1 _ (jget_mem hjp)
  refine ⟨⟨?_, ?_, ?_⟩, ?_⟩
  · intro p hp
    simp only [writeRecord] at hp
    rcases mem_jset_elim hp with h1 | h1
    · exact hwf.1 p h1
    · subst h1
      rfl
  · simp only [writeRecord]
    exact nodup_jkeys_jset _ _ hwf.2.1
  · intro tid cid
    simp only [writeRecord]
    rw [hagree]
    by_cases hne : tid = rec.entity.id
    · subst hne
      rw [liveRowFor_jset_self]
      apply applyDelta_project_self b.derivedRows rec.entity
        ((jget b.entities rec.entity.id).map (·.entity)) cid
        (by simpa [jkeys] using hcomp) hprev
      cases hjb : jget b.entities rec.entity.id with
      | none =>
        rw [hwf.2.2 rec.entity.id cid]
        simp [liveRowFor, hjb]
      | some prevRec =>
        rw [hwf.2.2 rec.entity.id cid]
        simp [liveRowFor, hjb]
    · rw [applyDelta_project_other b.derivedRows rec.entity _ tid cid hne
        hprev, hwf.2.2 tid cid]
      exact congrArg Option.toList
        (liveRowFor_congr (jget_jset_ne b.entities rec hne).symm cid)
  · intro tid hne
    simp only [writeRecord]
    exact jget_jset_ne _ _ hne

theorem modifyEntities_fold_wf (b0 : Backend) :
    ∀ (recs : List (String × EntityRecord)) (b : Backend),
    backendWF b →
    ((recs.map (fun p => p.2.entity.id)).Nodup) →
    (∀ p ∈ recs, (jkeys p.2.entity.componentStates).Nodup) →
    (∀ p ∈ recs, jget b.entities p.2.entity.id =
      jget b0.entities p.2.entity.id) →
    backendWF (recs.foldl (fun acc p => writeRecord b0 acc p.2) b) := by
  intro recs
  induction recs with
  | nil => intro b hwf _ _ _; exact hwf
  | cons q rest ih =>
    intro b hwf hnd hcomps hagree
    simp only [List.map_cons, List.nodup_cons] at hnd
    simp only [List.foldl_cons]
    obtain ⟨hwf', hother⟩ := writeRecord_wf b0 b q.2
      (hagree q (List.mem_cons_self _ _)).symm hwf
      (hcomps q (List.mem_cons_self _ _))
    apply ih _ hwf' hnd.2
    · exact fun p hp => hcomps p (List.mem_cons_of_mem _ hp)
    · intro p hp
      have hne : p.2.entity.id ≠ q.2.entity.id := by
        intro he
        exact hnd.1 (he ▸
          List.mem_map_of_mem (fun p => p.2.entity.id) hp)
      rw [hother p.2.entity.id hne]
      exact hagree p (List.mem_cons_of_mem _ hp)

theorem backendWF_empty : backendWF emptyBackend := by
  refine ⟨?_, ?_, ?_⟩
  · intro p hp
    simp [emptyBackend] at hp
  · simp [emptyBackend, jkeys]
  · intro tid cid
    rfl

/-- C4: after every committed `modifyEntities` call on a well-formed
backend (with well-formed staged records), the derived-row invariant
holds: every live component of every stored entity has exactly one
derived row with matching fields, and deleted components or entities have
none.  Concretely, inserting task `a` with components `a`, `b` due at
50ms produces exactly the two rows of the test snapshot, and the update
removing `b` with due time 300ms leaves exactly one row. -/
theorem modifyEntities_derived_rows_consistent :
    (∀ (b : Backend) (transform : JMap EntityRecord → JMap EntityRecord),
      backendWF b → recordsWF (transform b.entities) →
      backendWF (modifyEntities b transform)) ∧
    (modifyEntities emptyBackend cTransform1).derivedRows =
      [⟨"a", "a", 50⟩, ⟨"a", "b", 50⟩] ∧
    (modifyEntities (modifyEntities emptyBackend cTransform1)
      cTransform2).derivedRows = [⟨"a", "a", 300⟩] := by
  refine ⟨?_, by decide, by decide⟩
  intro b transform hwf hrec
  unfold modifyEntities
  exact modifyEntities_fold_wf b (transform b.entities) b hwf hrec.1
    (fun p hp => hrec.2 p hp) (fun p hp => rfl)

/-- Witness for C4: committing the insert transform on an empty backend
preserves the derived-row invariant. -/
theorem modifyEntities_derived_rows_consistent_witness :
    backendWF emptyBackend ∧
    recordsWF (cTransform1 emptyBackend.entities) ∧
    backendWF (modifyEntities emptyBackend cTransform1) :=
  ⟨backendWF_empty, ⟨by decide, by decide⟩,
    modifyEntities_derived_rows_consistent.1 emptyBackend cTransform1
      backendWF_empty ⟨by decide, by decide⟩⟩

end Orbit
